import Mathlib

/-!
Verification of the WKMP documentation link validator
(`docs/validation/validate_links.py`) against its natural-language
specification.

The Python source is shallowly embedded below.  Text is modeled as
`List Char` (documents in the corpus are ASCII, so Python's Unicode-aware
`str.lower`, `\w`, `\s`, `\d` coincide with their ASCII restrictions used
here).  Python `re.finditer` scanning loops are modeled by structural
recursion on an explicit fuel argument that is initialized to the length of
the scanned text; each successful match consumes at least one character, so
this fuel is always sufficient and the scanners agree with the unbounded
left-to-right scan.  Python sets are modeled as lists queried only through
membership; Python dicts keyed by file name are modeled as association
lists.  The floating-point expression `int((valid_links/total_links)*100)`
of `generate_report` is modeled faithfully: `fp64round` is IEEE-754
binary64 rounding (round to nearest, ties to even, 53-bit significand)
with unbounded exponent range, which agrees with Python's float arithmetic
on every normal-range value and hence on every run with fewer than 2^1022
links (no overflow or subnormal can then occur); in particular the model
reproduces the double-rounding behavior, e.g. 29 valid links out of 100
score 28, not the exact-arithmetic 29.
-/

namespace McRhythm

/-- Character class of Python's ASCII `[A-Z]`. -/
def isUpperChar (c : Char) : Bool := 'A' ≤ c && c ≤ 'Z'

/-- Character class of Python's regex `\d` (ASCII digits). -/
def isDigitChar (c : Char) : Bool := '0' ≤ c && c ≤ '9'

/-- Character class of Python's regex `\w` (ASCII word characters). -/
def isWordChar (c : Char) : Bool :=
  ('a' ≤ c && c ≤ 'z') || ('A' ≤ c && c ≤ 'Z') || ('0' ≤ c && c ≤ '9') || c == '_'

/-- Character class of Python's regex `\s` and of `str.strip()` (ASCII). -/
def isSpaceChar (c : Char) : Bool :=
  c == ' ' || c == '\t' || c == '\n' || c == '\x0d' || c == '\x0b' || c == '\x0c'

/-!
Slugification of a header title, from `extract_anchors_from_file`:
`anchor = re.sub(r'[^\w\s-]', '', header.lower())`
`anchor = re.sub(r'\s+', '-', anchor.strip())`
`Char.toLower` is exactly Python's `str.lower` on ASCII letters.
-/

/-- Removal of leading and trailing whitespace, Python `str.strip()`. -/
def stripWs (s : List Char) : List Char :=
  ((s.dropWhile isSpaceChar).reverse.dropWhile isSpaceChar).reverse

/-- Replacement of every maximal nonempty whitespace run by a single
hyphen, Python `re.sub(r'\s+', '-', ·)`.  The boolean flag records whether
the previous character was whitespace (i.e. we are inside a run). -/
def collapseWsAux : Bool → List Char → List Char
  | _, [] => []
  | inRun, c :: cs =>
    if isSpaceChar c then
      if inRun then collapseWsAux true cs else '-' :: collapseWsAux true cs
    else c :: collapseWsAux false cs

/-- Python `re.sub(r'\s+', '-', ·)`. -/
def collapseWs (s : List Char) : List Char := collapseWsAux false s

/-- Header-title slugification from `extract_anchors_from_file` lines 43-44:
lowercase, delete characters matching `[^\w\s-]`, strip whitespace, then
collapse whitespace runs to single hyphens. -/
def slugify (title : List Char) : List Char :=
  collapseWs (stripWs ((title.map Char.toLower).filter
    (fun c => isWordChar c || isSpaceChar c || c == '-')))

/-- Slug rule as worded by the specification (section 3): "lowercased,
non-word/non-space/non-hyphen characters stripped, runs of whitespace
collapsed to single hyphens, leading/trailing hyphens trimmed".  Used only
to compare the specification's wording with the code's `slugify`. -/
def slugifySpec (title : List Char) : List Char :=
  let collapsed := collapseWs ((title.map Char.toLower).filter
    (fun c => isWordChar c || isSpaceChar c || c == '-'))
  ((collapsed.dropWhile (· == '-')).reverse.dropWhile (· == '-')).reverse

/-!
Requirement-ID bracket tokens: `re.finditer(r'\[([A-Z]+-[A-Z]+-\d+)\]', ·)`.
All character classes of the pattern are pairwise disjoint and disjoint
from the closing delimiters, so the regex engine's greedy matching never
backtracks and maximal-munch matching is exact.
-/

/-- Match of `\[([A-Z]+-[A-Z]+-\d+)\]` anchored at the head of the input;
returns the captured group and the remaining input after the match. -/
def matchReqAt (cs : List Char) : Option (List Char × List Char) :=
  match cs with
  | '[' :: r0 =>
    let a := r0.takeWhile isUpperChar
    let r1 := r0.dropWhile isUpperChar
    if a.isEmpty then none else
    match r1 with
    | '-' :: r2 =>
      let b := r2.takeWhile isUpperChar
      let r3 := r2.dropWhile isUpperChar
      if b.isEmpty then none else
      match r3 with
      | '-' :: r4 =>
        let d := r4.takeWhile isDigitChar
        let r5 := r4.dropWhile isDigitChar
        if d.isEmpty then none else
        match r5 with
        | ']' :: r6 => some (a ++ '-' :: b ++ '-' :: d, r6)
        | _ => none
      | _ => none
    | _ => none
  | _ => none

/-- Left-to-right non-overlapping scan of `\[([A-Z]+-[A-Z]+-\d+)\]`,
Python `re.finditer`; fuel decreases at every step and is at least the
length of the scanned text at the top-level call. -/
def reqTokensAux : Nat → List Char → List (List Char)
  | 0, _ => []
  | _ + 1, [] => []
  | fuel + 1, c :: cs =>
    match matchReqAt (c :: cs) with
    | some (tok, rest) => tok :: reqTokensAux fuel rest
    | none => reqTokensAux fuel cs

/-- All bracketed requirement-ID tokens of a text, in document order. -/
def reqTokens (cs : List Char) : List (List Char) := reqTokensAux cs.length cs

/-!
Markdown links: `re.finditer(r'\[([^\]]+)\]\(([^)]+)\)', ·)`.
`[^\]]+` can never produce a `]`, so greedy matching stops exactly at the
first `]` and never backtracks; likewise `[^)]+` at the first `)`.
-/

/-- Match of `\[([^\]]+)\]\(([^)]+)\)` anchored at the head of the input;
returns (link text, link target, remaining input). -/
def matchLinkAt (cs : List Char) : Option (List Char × List Char × List Char) :=
  match cs with
  | '[' :: r0 =>
    let txt := r0.takeWhile (· ≠ ']')
    let r1 := r0.dropWhile (· ≠ ']')
    if txt.isEmpty then none else
    match r1 with
    | ']' :: '(' :: r2 =>
      let tgt := r2.takeWhile (· ≠ ')')
      let r3 := r2.dropWhile (· ≠ ')')
      if tgt.isEmpty then none else
      match r3 with
      | ')' :: r4 => some (txt, tgt, r4)
      | _ => none
    | _ => none
  | _ => none

/-- Boolean test for Python `target.startswith('http://') or
target.startswith('https://')`. -/
def startsHttp (tgt : List Char) : Bool :=
  List.isPrefixOf "http://".toList tgt || List.isPrefixOf "https://".toList tgt

/-- Scan of `extract_links_from_file`: every `[text](target)` match in
order, with external `http(s)://` targets skipped. -/
def linksAux : Nat → List Char → List (List Char × List Char)
  | 0, _ => []
  | _ + 1, [] => []
  | fuel + 1, c :: cs =>
    match matchLinkAt (c :: cs) with
    | some (txt, tgt, rest) =>
      if startsHttp tgt then linksAux fuel rest
      else (txt, tgt) :: linksAux fuel rest
    | none => linksAux fuel cs

/-- Links of a text, from `extract_links_from_file`. -/
def extractLinksList (cs : List Char) : List (List Char × List Char) :=
  linksAux cs.length cs

/-- Replacement scan of `re.sub(r'\[([^\]]+)\]\(([^)]+)\)', r'\1', ·)` used
by `find_orphaned_references`: each link construct is replaced by its link
text. -/
def subLinksAux : Nat → List Char → List Char
  | 0, cs => cs
  | _ + 1, [] => []
  | fuel + 1, c :: cs =>
    match matchLinkAt (c :: cs) with
    | some (txt, _, rest) => txt ++ subLinksAux fuel rest
    | none => c :: subLinksAux fuel cs

/-- Python `re.sub(r'\[([^\]]+)\]\(([^)]+)\)', r'\1', content)`. -/
def stripLinks (cs : List Char) : List Char := subLinksAux cs.length cs

/-- Literal-prefix matcher: consumes `lit` from the head of the input. -/
def matchLit (lit cs : List Char) : Option (List Char) :=
  if List.isPrefixOf lit cs then some (cs.drop lit.length) else none

/-- Match of one alternation branch `LIT[A-Z]+-\d+` (with `LIT` either
`DBD-` or `SRC-`) anchored at the head of the input; returns the matched
token and the remaining input. -/
def matchOrphanBranch (lit cs : List Char) : Option (List Char × List Char) :=
  match matchLit lit cs with
  | none => none
  | some r0 =>
    let a := r0.takeWhile isUpperChar
    let r1 := r0.dropWhile isUpperChar
    if a.isEmpty then none else
    match r1 with
    | '-' :: r2 =>
      let d := r2.takeWhile isDigitChar
      let r3 := r2.dropWhile isDigitChar
      if d.isEmpty then none else some (lit ++ a ++ '-' :: d, r3)
    | _ => none

/-- Match of `(DBD-[A-Z]+-\d+|SRC-[A-Z]+-\d+)` anchored at the head of the
input: the `DBD` branch is tried first, as in the source pattern. -/
def matchOrphanAt (cs : List Char) : Option (List Char × List Char) :=
  match matchOrphanBranch "DBD-".toList cs with
  | some r => some r
  | none => matchOrphanBranch "SRC-".toList cs

/-- Scan of `re.finditer(r'(DBD-[A-Z]+-\d+|SRC-[A-Z]+-\d+)', ·)`. -/
def orphanAux : Nat → List Char → List (List Char)
  | 0, _ => []
  | _ + 1, [] => []
  | fuel + 1, c :: cs =>
    match matchOrphanAt (c :: cs) with
    | some (tok, rest) => tok :: orphanAux fuel rest
    | none => orphanAux fuel cs

/-- All orphan-family tokens of a text. -/
def orphanTokens (cs : List Char) : List (List Char) := orphanAux cs.length cs

/-!
Header matching: `re.finditer(r'^#+\s+(.+)$', content, re.MULTILINE)`.
At a line start: `#+` is a maximal run of `#` (a `#` can never satisfy the
following `\s`, so no backtracking into `#+` can succeed).  `\s+` first
tries the maximal whitespace run `w`.  If a character follows `w` it is
non-whitespace, hence not a newline, so `(.+)` matches all characters up to
the next newline or end of input and the multiline `$` succeeds; no
backtracking happens.  If `w` runs to the end of the input, `(.+)$` fails
after the maximal `\s+`, and the engine gives characters back one at a
time: the first (i.e. rightmost) position `k ≥ 1` whose character `w[k]` is
not a newline yields the match, whose group is just that single character
(every later character of `w` is a newline).  `\s` may consume newlines, so
a match may jump across empty lines.
-/

/-- Backtracking case of the header pattern: the whitespace run after `#+`
reaches the end of the input.  Input is that whitespace run; returns the
single-character title and the remaining input after the match, if any
position at index ≥ 1 holds a non-newline character. -/
def backtrackTitle (w : List Char) : Option (List Char × List Char) :=
  let revTail := (w.drop 1).reverse
  match revTail.dropWhile (· == '\n') with
  | [] => none
  | c :: _ => some ([c], (revTail.takeWhile (· == '\n')).reverse)

/-- Match of `^#+\s+(.+)$` anchored at the head of the input (which the
caller guarantees to be a line start); returns the title group and the
remaining input after the match. -/
def matchHeaderAt (cs : List Char) : Option (List Char × List Char) :=
  let hashes := cs.takeWhile (· == '#')
  let r0 := cs.dropWhile (· == '#')
  if hashes.isEmpty then none else
  let w := r0.takeWhile isSpaceChar
  let r1 := r0.dropWhile isSpaceChar
  if w.isEmpty then none else
  match r1 with
  | [] => backtrackTitle w
  | _ :: _ => some (r1.takeWhile (· ≠ '\n'), r1.dropWhile (· ≠ '\n'))

/-- Multiline scan for `^#+\s+(.+)$`: the boolean flag records whether the
current position is a line start (start of input or just after a newline),
where the multiline `^` matches. -/
def headersAux : Nat → Bool → List Char → List (List Char)
  | 0, _, _ => []
  | _ + 1, _, [] => []
  | fuel + 1, atStart, c :: cs =>
    if atStart then
      match matchHeaderAt (c :: cs) with
      | some (title, rest) => title :: headersAux fuel false rest
      | none => headersAux fuel (c == '\n') cs
    else headersAux fuel (c == '\n') cs

/-- All header titles of a text, in document order. -/
def headerTitles (cs : List Char) : List (List Char) :=
  headersAux cs.length true cs

/-!
The validator.  `LinkValidator.__init__` loads the documents; a `Document`
is a file name together with its text.  The in-process caches
`self.anchors` and `self.requirement_ids` (dicts keyed by file name) are
modeled as association lists built by `cache_all_anchors_and_ids`.
-/

/-- A markdown document of the corpus: its file name and raw text. -/
structure Document where
  name : String
  content : String
deriving DecidableEq

/-- Anchor extraction, `extract_anchors_from_file`: slugified header titles
plus, for every bracketed requirement-ID token, both its lowercase form and
its exact form.  The Python function returns a set; this list is queried
only through membership. -/
def extract_anchors (content : String) : List String :=
  (headerTitles content.toList).map (fun t => String.mk (slugify t)) ++
    (reqTokens content.toList).flatMap
      (fun t => [String.mk (t.map Char.toLower), String.mk t])

/-- Requirement-ID extraction, `extract_requirement_ids_from_file`: the
exact-case bracketed tokens.  The Python function returns a set; this list
is queried only through membership. -/
def extract_requirement_ids (content : String) : List String :=
  (reqTokens content.toList).map String.mk

/-- Link extraction, `extract_links_from_file`, as (text, target) pairs. -/
def extract_links (content : String) : List (String × String) :=
  (extractLinksList content.toList).map (fun p => (String.mk p.1, String.mk p.2))

/-- Requirement references, `find_requirement_references`: like
`extract_requirement_ids` but kept as an ordered list with duplicates. -/
def find_requirement_references (content : String) : List String :=
  (reqTokens content.toList).map String.mk

/-- Orphan detection, `find_orphaned_references`: remove every markdown
link construct (keeping its link text), then scan the residue for
`DBD-*`/`SRC-*` tokens. -/
def find_orphaned_references (content : String) : List String :=
  (orphanTokens (stripLinks content.toList)).map String.mk

/-- The immutable part of the validator state: `self.file_names`,
`self.anchors`, `self.requirement_ids` after `cache_all_anchors_and_ids`. -/
structure Validator where
  file_names : List String
  anchors : List (String × List String)
  requirement_ids : List (String × List String)

/-- Construction of the caches from the corpus (`__init__` plus
`cache_all_anchors_and_ids`).  File names produced by a directory listing
are pairwise distinct, so the association lists model the Python dicts
exactly. -/
def mkValidator (docs : List Document) : Validator :=
  { file_names := docs.map (·.name)
    anchors := docs.map (fun d => (d.name, extract_anchors d.content))
    requirement_ids := docs.map (fun d => (d.name, extract_requirement_ids d.content)) }

/-- Split of the link target on the first `#`, lines 79-83 of
`validate_link`: `none` models Python's `anchor_part = None`. -/
def splitHash (t : List Char) : List Char × Option (List Char) :=
  if t.contains '#' then
    (t.takeWhile (· ≠ '#'), some ((t.dropWhile (· ≠ '#')).drop 1))
  else (t, none)

/-- Link validation, `validate_link`.  Returns `(is_valid, error)`. -/
def validate_link (v : Validator) (sourceName : String)
    (_link_text link_target : String) : Bool × String :=
  let (file_part, anchor_part) := splitHash link_target.toList
  let target_file := if file_part.isEmpty then sourceName else String.mk file_part
  if target_file ∉ v.file_names then
    (false, "Target file not found: " ++ target_file)
  else
    match anchor_part with
    | some a =>
      if a.isEmpty then (true, "") else
      match v.anchors.lookup target_file with
      | none => (false, "No anchors cached for " ++ target_file)
      | some ancs =>
        if String.mk a ∈ ancs then (true, "")
        else (false, "Anchor #" ++ String.mk a ++ " not found in " ++ target_file)
    | none => (true, "")

/-- The fixed prefix-to-document table of `validate_requirement_reference`,
with the code's mixed single/multi-value entries normalized to lists (as
the code itself does immediately after the lookup); an unmapped key yields
`[]` as in `file_map.get(prefix, [])`. -/
def file_map (pfx : String) : List String :=
  if pfx == "REQ" then ["REQ001-requirements.md"]
  else if pfx == "GOV" then
    ["GOV001-document_hierarchy.md", "GOV002-requirements_enumeration.md",
     "GOV003-filename_convention.md"]
  else if pfx == "ARCH" then ["SPEC001-architecture.md"]
  else if pfx == "XFD" then ["SPEC002-crossfade.md"]
  else if pfx == "FLV" then ["SPEC003-musical_flavor.md"]
  else if pfx == "API" then ["SPEC007-api_design.md"]
  else if pfx == "DBD" then ["SPEC016-decoder_buffer_design.md"]
  else if pfx == "SRC" then ["SPEC017-sample_rate_conversion.md"]
  else if pfx == "VOL" then ["SPEC013-single_stream_playback.md"]
  else if pfx == "SSP" then ["SPEC014-single_stream_design.md"]
  else if pfx == "DB" then ["IMPL001-database_schema.md"]
  else []

/-- Python `req_id.split('-')[0]`: the characters before the first `-`. -/
def prefixOf (req_id : String) : String :=
  String.mk (req_id.toList.takeWhile (· ≠ '-'))

/-- Requirement-reference validation, `validate_requirement_reference`.
The Python loop over `expected_files` with an early `return True` is the
existence test below; a candidate file absent from the
`self.requirement_ids` dict contributes nothing. -/
def validate_requirement_reference (reqIds : List (String × List String))
    (req_id : String) : Bool × String :=
  let expected_files := file_map (prefixOf req_id)
  if expected_files.isEmpty then (true, "")
  else if expected_files.any (fun f =>
      match reqIds.lookup f with
      | some s => req_id ∈ s
      | none => false) then (true, "")
  else (false, "Requirement ID " ++ req_id ++ " not found in expected file(s): "
    ++ String.intercalate ", " expected_files)

/-- Boolean substring test, Python `needle in hay` on strings. -/
def containsSub (hay needle : List Char) : Bool :=
  List.isPrefixOf needle hay ||
    match hay with
    | [] => false
    | _ :: t => containsSub t needle

/-- Entry of `self.broken_links`. -/
structure BrokenLink where
  file : String
  link_text : String
  link_target : String
  error : String
deriving DecidableEq

/-- Entry of `self.invalid_requirement_ids`. -/
structure InvalidReq where
  file : String
  requirement_id : String
  error : String
deriving DecidableEq

/-- Entry of `self.orphaned_references`. -/
structure Orphan where
  file : String
  reference : String
deriving DecidableEq

/-- The mutable result-tracking fields of `LinkValidator`. -/
structure VState where
  total_links : Nat
  valid_links : Nat
  broken_links : List BrokenLink
  invalid_requirement_ids : List InvalidReq
  orphaned_references : List Orphan
  documents_with_issues : List (String × List String)
  critical_issues : List String
  warnings : List String
deriving DecidableEq

/-- The fresh state built by `__init__`. -/
def initState : VState :=
  { total_links := 0, valid_links := 0, broken_links := [],
    invalid_requirement_ids := [], orphaned_references := [],
    documents_with_issues := [], critical_issues := [], warnings := [] }

/-- Python `self.documents_with_issues[name].append(e)` on the
`defaultdict(list)`: appends to the entry of `name`, creating it (at the
end, matching dict insertion order) if absent. -/
def addIssue (m : List (String × List String)) (name e : String) :
    List (String × List String) :=
  match m with
  | [] => [(name, [e])]
  | (k, v) :: rest =>
    if k = name then (k, v ++ [e]) :: rest else (k, v) :: addIssue rest name e

/-- Condition of line 217: `'SPEC016' in link_target or 'SPEC017' in
link_target`. -/
def critTarget (tgt : String) : Bool :=
  containsSub tgt.toList "SPEC016".toList || containsSub tgt.toList "SPEC017".toList

/-- Body of the per-link loop of `validate_all` (lines 202-218). -/
def processLink (v : Validator) (dname : String) (st : VState)
    (lk : String × String) : VState :=
  let st := { st with total_links := st.total_links + 1 }
  let r := validate_link v dname lk.1 lk.2
  if r.1 then { st with valid_links := st.valid_links + 1 }
  else
    let st := { st with
      broken_links := st.broken_links ++ [⟨dname, lk.1, lk.2, r.2⟩],
      documents_with_issues := addIssue st.documents_with_issues dname r.2 }
    if critTarget lk.2 then
      { st with critical_issues := st.critical_issues ++ [dname ++ ": " ++ r.2] }
    else st

/-- Body of the per-requirement-reference loop of `validate_all`
(lines 222-231). -/
def processReq (v : Validator) (dname : String) (st : VState)
    (req_id : String) : VState :=
  let r := validate_requirement_reference v.requirement_ids req_id
  if r.1 then st
  else { st with
    invalid_requirement_ids := st.invalid_requirement_ids ++ [⟨dname, req_id, r.2⟩],
    documents_with_issues := addIssue st.documents_with_issues dname r.2 }

/-- Body of the per-orphaned-reference loop of `validate_all`
(lines 236-241). -/
def processOrphan (dname : String) (st : VState) (ref : String) : VState :=
  { st with
    orphaned_references := st.orphaned_references ++ [⟨dname, ref⟩],
    warnings := st.warnings ++
      [dname ++ ": Orphaned reference " ++ ref ++ " (not in markdown link)"] }

/-- Per-document body of `validate_all`: links, then requirement
references, then orphaned references. -/
def processDoc (v : Validator) (st : VState) (d : Document) : VState :=
  let st := (extract_links d.content).foldl (processLink v d.name) st
  let st := (find_requirement_references d.content).foldl (processReq v d.name) st
  (find_orphaned_references d.content).foldl (processOrphan d.name) st

/-- The state after `validate_all` has visited every document of the
corpus (caches are built from the same corpus first). -/
def validate_all (docs : List Document) : VState :=
  docs.foldl (processDoc (mkValidator docs)) initState

/-!
IEEE-754 binary64 arithmetic, needed by the health score of
`generate_report` (line 251): Python evaluates
`int((self.valid_links / self.total_links) * 100)` in double precision.
CPython's int/int true division returns the correctly rounded double of
the exact quotient, and float multiplication is correctly rounded, both
in the default round-to-nearest-ties-to-even mode.
-/

/-- Round a rational to the nearest integer, ties to even: the rounding
applied to the scaled significand by IEEE-754 round-to-nearest. -/
def rnde (x : ℚ) : ℤ :=
  if x - ⌊x⌋ < 1/2 then ⌊x⌋
  else if 1/2 < x - ⌊x⌋ then ⌊x⌋ + 1
  else if 2 ∣ ⌊x⌋ then ⌊x⌋ else ⌊x⌋ + 1

/-- Binary64 rounding of a positive rational: scale into the significand
range `[2^52, 2^53)` using the base-2 logarithm, round to nearest even,
and scale back.  The exponent range is unbounded; this agrees with IEEE
binary64 on the entire normal range (no overflow or subnormal occurs for
the quotients and products arising in `generate_report` on any run with
fewer than `2^1022` links). -/
def fp64pos (q : ℚ) : ℚ :=
  (rnde (q / 2 ^ (Int.log 2 q - 52)) : ℚ) * 2 ^ (Int.log 2 q - 52)

/-- Correctly rounded binary64 value of a rational (round to nearest,
ties to even).  Only nonnegative inputs arise here. -/
def fp64round (q : ℚ) : ℚ :=
  if q = 0 then 0 else if q < 0 then -fp64pos (-q) else fp64pos q

/-- The double-precision percentage of line 251:
`int((valid_links / total_links) * 100)`, i.e. the truncation toward zero
(equivalently the floor, the value being nonnegative) of the correctly
rounded product of the correctly rounded quotient with 100. -/
def float_percent (total_links valid_links : Nat) : Nat :=
  ⌊fp64round (fp64round ((valid_links : ℚ) / (total_links : ℚ)) * 100)⌋₊

/-- Health-score computation of `generate_report` (lines 250-257); `max 0`
mirrors the source (a no-op over naturals, as in Python the subtraction
falls below the `max` floor exactly when the natural subtraction does). -/
def health_score_calc (total_links valid_links num_invalid : Nat) : Nat :=
  let hs := if 0 < total_links then float_percent total_links valid_links else 100
  if num_invalid ≠ 0 then max 0 (hs - 2 * num_invalid) else hs

/-- The report assembled by `generate_report` (the `summary` record, which
only duplicates counts already present, is not modeled). -/
structure Report where
  total_links_checked : Nat
  valid_links : Nat
  broken_links : List BrokenLink
  invalid_requirement_ids : List InvalidReq
  missing_anchors : List String
  orphaned_references : List Orphan
  documents_with_issues : List (String × List String)
  critical_issues : List String
  warnings : List String
  health_score : Nat
deriving DecidableEq

/-- Comparator of `sorted(..., key=lambda x: len(x[1]), reverse=True)`:
an entry may precede exactly those with no larger an issue list. -/
def moreIssues (a b : String × List String) : Bool := b.2.length ≤ a.2.length

/-- Report generation, `generate_report` (lines 245-290). -/
def generate_report (st : VState) : Report :=
  let docs_sorted := (st.documents_with_issues.mergeSort moreIssues).take 10
  { total_links_checked := st.total_links
    valid_links := st.valid_links
    broken_links := st.broken_links
    invalid_requirement_ids := st.invalid_requirement_ids
    missing_anchors := []
    orphaned_references := st.orphaned_references
    documents_with_issues := docs_sorted
    critical_issues := st.critical_issues
    warnings := st.warnings
    health_score := health_score_calc st.total_links st.valid_links
      st.invalid_requirement_ids.length }

/-!
Derived observations used to state the claims.
-/

/-- The issue list recorded for document `n` in the per-document tally
(empty when the document has no entry). -/
def getIssues (m : List (String × List String)) (n : String) : List String :=
  (m.lookup n).getD []

/-- Error messages of the broken links recorded for document `n`. -/
def brokenErrorsFor (st : VState) (n : String) : List String :=
  (st.broken_links.filter (fun b => b.file == n)).map (·.error)

/-- Error messages of the invalid requirement references recorded for
document `n`. -/
def invalidErrorsFor (st : VState) (n : String) : List String :=
  (st.invalid_requirement_ids.filter (fun i => i.file == n)).map (·.error)

/-- The critical-issues line a broken link would produce (line 218). -/
def critLine (b : BrokenLink) : String := b.file ++ ": " ++ b.error

/-- Characterization of the critical-issues list: exactly the broken links
whose target mentions SPEC016 or SPEC017, in order, formatted as on
line 218. -/
def critInvariant (st : VState) : Prop :=
  st.critical_issues =
    (st.broken_links.filter (fun b => critTarget b.link_target)).map critLine

/-- Per-run counter sanity: no more valid links than links examined. -/
def validLeTotal (st : VState) : Prop := st.valid_links ≤ st.total_links

/-!
Helper lemmas.
-/

theorem toList_append (s t : String) : (s ++ t).toList = s.toList ++ t.toList := by
  simp [String.toList]

theorem toList_eq_nil_iff (s : String) : s.toList = [] ↔ s = "" := by
  constructor
  · intro h
    apply String.ext
    simpa [String.toList] using h
  · intro h
    simp [h, String.toList]

theorem mk_toList (s : String) : String.mk s.toList = s := rfl

/-- Lookup in the anchor cache built over the corpus succeeds for every
file name of the corpus. -/
theorem lookup_map_isSome {β : Type} (docs : List Document) (f : Document → β)
    (n : String) (h : n ∈ docs.map (·.name)) :
    ∃ l, (docs.map (fun d => (d.name, f d))).lookup n = some l := by
  induction docs with
  | nil => simp at h
  | cons d ds ih =>
    by_cases hd : n = d.name
    · exact ⟨f d, by simp [List.lookup, hd]⟩
    · have hmem : n ∈ ds.map (·.name) := by
        simpa [hd] using h
      obtain ⟨l, hl⟩ := ih hmem
      have hbeq : (n == d.name) = false := by simp [hd]
      exact ⟨l, by simp [List.lookup, hbeq, hl]⟩

/--
Claim C9.  An extracted link whose target ends in a `#` with an empty
anchor part skips the anchor check entirely: it is valid exactly when the
file part names a known document, for every anchor cache whatsoever.
-/
theorem c9_empty_anchor_skips_check (v : Validator) (src txt F : String)
    (hF : '#' ∉ F.toList) (hne : F ≠ "") :
    (validate_link v src txt (F ++ "#")).1 = true ↔ F ∈ v.file_names := by
  have hall : ∀ a ∈ F.toList, a ≠ '#' := fun a ha he => hF (he ▸ ha)
  have htl : (F ++ "#").toList = F.toList ++ ['#'] := by
    simp [toList_append]
  have hcontains : (F.toList ++ ['#']).contains '#' = true := by
    simp [List.contains]
  have htake : (F.toList ++ ['#']).takeWhile (· ≠ '#') = F.toList := by
    rw [List.takeWhile_append_of_pos (by simpa using hall)]
    simp [List.takeWhile]
  have hdrop : (F.toList ++ ['#']).dropWhile (· ≠ '#') = ['#'] := by
    rw [List.dropWhile_append_of_pos (by simpa using hall)]
    simp [List.dropWhile]
  have hFne : F.toList.isEmpty = false := by
    rcases h : F.toList.isEmpty with _ | _
    · rfl
    · exact absurd ((toList_eq_nil_iff F).mp (by simpa using h)) hne
  simp only [validate_link, splitHash, htl, hcontains, if_true, htake, hdrop,
    hFne, Bool.false_eq_true, if_false, mk_toList]
  by_cases hmem : F ∈ v.file_names
  · simp [hmem]
  · simp [hmem]

/-- Witness for C9 at a concrete validator and link. -/
theorem c9_empty_anchor_skips_check_witness :
    (validate_link ⟨["A.md", "B.md"], [("A.md", ["x"])], []⟩
      "A.md" "t" ("B.md" ++ "#")).1 = true ↔ "B.md" ∈ ["A.md", "B.md"] :=
  c9_empty_anchor_skips_check ⟨["A.md", "B.md"], [("A.md", ["x"])], []⟩
    "A.md" "t" "B.md" (by decide) (by decide)

/--
Claim C2.  For a link `[x](F#A)` with nonempty anchor part `A`, validity
under the caches built from the corpus is exactly the conjunction of the
two checks: the resolved target (the source document when `F` is empty)
is a known document name, and `A` is in the target document's cached
anchor set.
-/
theorem c2_validity_iff_file_and_anchor (docs : List Document)
    (src txt F A : String) (hF : '#' ∉ F.toList) (hA : A ≠ "") :
    (validate_link (mkValidator docs) src txt (F ++ "#" ++ A)).1 = true ↔
      ((if F = "" then src else F) ∈ (mkValidator docs).file_names ∧
        A ∈ ((mkValidator docs).anchors.lookup
          (if F = "" then src else F)).getD []) := by
  have hall : ∀ a ∈ F.toList, a ≠ '#' := fun a ha he => hF (he ▸ ha)
  have htl : (F ++ "#" ++ A).toList = F.toList ++ '#' :: A.toList := by
    simp [toList_append]
  have hcontains : (F.toList ++ '#' :: A.toList).contains '#' = true := by
    simp [List.contains]
  have htake : (F.toList ++ '#' :: A.toList).takeWhile (· ≠ '#') = F.toList := by
    rw [List.takeWhile_append_of_pos (by simpa using hall)]
    simp [List.takeWhile]
  have hdrop : (F.toList ++ '#' :: A.toList).dropWhile (· ≠ '#') = '#' :: A.toList := by
    rw [List.dropWhile_append_of_pos (by simpa using hall)]
    simp [List.dropWhile]
  have hAne : A.toList.isEmpty = false := by
    rcases h : A.toList.isEmpty with _ | _
    · rfl
    · exact absurd ((toList_eq_nil_iff A).mp (by simpa using h)) hA
  have hresolve : (if F.toList.isEmpty = true then src else String.mk F.toList) =
      (if F = "" then src else F) := by
    by_cases hF0 : F = ""
    · subst hF0
      rfl
    · have hfe : F.toList.isEmpty = false := by
        rcases h : F.toList.isEmpty with _ | _
        · rfl
        · exact absurd ((toList_eq_nil_iff F).mp (by simpa using h)) hF0
      rw [hfe]
      simp [hF0, mk_toList]
  simp only [validate_link, splitHash, htl, hcontains, if_true, htake, hdrop,
    List.drop_succ_cons, List.drop_zero, hresolve]
  set tf := if F = "" then src else F with htf
  by_cases hmem : tf ∈ (mkValidator docs).file_names
  · have hsome : ∃ l, (mkValidator docs).anchors.lookup tf = some l := by
      apply lookup_map_isSome
      simpa [mkValidator] using hmem
    obtain ⟨l, hl⟩ := hsome
    simp only [hmem, not_true, Bool.false_eq_true, if_false, hAne, hl, mk_toList]
    by_cases hanc : A ∈ l
    · simp [hanc, hmem, hl]
    · simp [hanc, hmem, hl]
  · simp [hmem]

/-- Witness for C2 at a concrete two-document corpus. -/
theorem c2_validity_iff_file_and_anchor_witness :
    (validate_link (mkValidator [⟨"A.md", "# x\n"⟩, ⟨"B.md", "# y\n"⟩])
      "A.md" "t" ("B.md" ++ "#" ++ "y")).1 = true ↔
      ((if ("B.md" : String) = "" then "A.md" else "B.md") ∈
          (mkValidator [⟨"A.md", "# x\n"⟩, ⟨"B.md", "# y\n"⟩]).file_names ∧
        "y" ∈ ((mkValidator [⟨"A.md", "# x\n"⟩, ⟨"B.md", "# y\n"⟩]).anchors.lookup
          (if ("B.md" : String) = "" then "A.md" else "B.md")).getD []) :=
  c2_validity_iff_file_and_anchor [⟨"A.md", "# x\n"⟩, ⟨"B.md", "# y\n"⟩]
    "A.md" "t" "B.md" "y" (by decide) (by decide)

/--
Claim C5.  For a bracketed requirement token: an unmapped PREFIX always
validates with no error; a mapped PREFIX yields an invalid-requirement-ID
verdict exactly when the token is in the cached requirement index of none
of the candidate documents, and the error message then names every
candidate document checked.
-/
theorem c5_requirement_reference_resolution
    (reqIds : List (String × List String)) (req_id : String) :
    (file_map (prefixOf req_id) = [] →
      validate_requirement_reference reqIds req_id = (true, "")) ∧
    (file_map (prefixOf req_id) ≠ [] →
      (((validate_requirement_reference reqIds req_id).1 = true) ↔
        ∃ f ∈ file_map (prefixOf req_id), req_id ∈ (reqIds.lookup f).getD []) ∧
      ((validate_requirement_reference reqIds req_id).1 = false →
        (validate_requirement_reference reqIds req_id).2 =
          "Requirement ID " ++ req_id ++ " not found in expected file(s): " ++
            String.intercalate ", " (file_map (prefixOf req_id)))) := by
  constructor
  · intro h
    simp [validate_requirement_reference, h]
  · intro h
    have hne : (file_map (prefixOf req_id)).isEmpty = false := by
      rcases he : (file_map (prefixOf req_id)).isEmpty with _ | _
      · rfl
      · exact absurd (by simpa using he) h
    by_cases hany : (file_map (prefixOf req_id)).any (fun f =>
        match reqIds.lookup f with
        | some s => req_id ∈ s
        | none => false) = true
    · have hres : validate_requirement_reference reqIds req_id = (true, "") := by
        simp only [validate_requirement_reference, hne, Bool.false_eq_true, if_false]
        rw [if_pos hany]
      have hex : ∃ f ∈ file_map (prefixOf req_id),
          req_id ∈ (reqIds.lookup f).getD [] := by
        rw [List.any_eq_true] at hany
        obtain ⟨f, hf, hp⟩ := hany
        refine ⟨f, hf, ?_⟩
        cases hlk : reqIds.lookup f with
        | none => rw [hlk] at hp; simp at hp
        | some s => rw [hlk] at hp; simpa using hp
      rw [hres]
      exact ⟨by simpa using hex, by simp⟩
    · have hnone : ¬∃ f ∈ file_map (prefixOf req_id),
          req_id ∈ (reqIds.lookup f).getD [] := by
        rintro ⟨f, hf, hmem⟩
        apply hany
        rw [List.any_eq_true]
        refine ⟨f, hf, ?_⟩
        cases hlk : reqIds.lookup f with
        | none => rw [hlk] at hmem; simp at hmem
        | some s => rw [hlk] at hmem; simpa using hmem
      have hres : validate_requirement_reference reqIds req_id =
          (false, "Requirement ID " ++ req_id ++ " not found in expected file(s): "
            ++ String.intercalate ", " (file_map (prefixOf req_id))) := by
        simp only [validate_requirement_reference, hne, Bool.false_eq_true, if_false]
        rw [if_neg (by simpa using hany)]
      rw [hres]
      exact ⟨by simpa using hnone, fun _ => rfl⟩

/-- Witness for C5 at a concrete mapped and resolved token. -/
theorem c5_requirement_reference_resolution_witness :
    (((validate_requirement_reference
        [("SPEC016-decoder_buffer_design.md", ["DBD-FOO-1"])] "DBD-FOO-1").1 = true) ↔
      ∃ f ∈ file_map (prefixOf "DBD-FOO-1"),
        "DBD-FOO-1" ∈ (([("SPEC016-decoder_buffer_design.md",
          ["DBD-FOO-1"])] : List (String × List String)).lookup f).getD []) :=
  ((c5_requirement_reference_resolution
    [("SPEC016-decoder_buffer_design.md", ["DBD-FOO-1"])] "DBD-FOO-1").2
    (by decide)).1

/--
Claim C7.  Anchor extraction is deterministic (a pure function of the
text) and its result contains the lowercase form of every bracketed
requirement token of the document.
-/
theorem c7_anchors_superset_of_lower_req_ids (content : String) :
    extract_anchors content = extract_anchors content ∧
    ∀ r ∈ extract_requirement_ids content,
      String.mk (r.toList.map Char.toLower) ∈ extract_anchors content := by
  refine ⟨rfl, ?_⟩
  intro r hr
  simp only [extract_requirement_ids, List.mem_map] at hr
  obtain ⟨t, ht, rfl⟩ := hr
  simp only [extract_anchors, List.mem_append, List.mem_flatMap]
  exact Or.inr ⟨t, ht, by simp [mk_toList]⟩

/-- Witness for C7 on a document holding one requirement token. -/
theorem c7_anchors_superset_of_lower_req_ids_witness :
    String.mk ("ABC-DEF-1".toList.map Char.toLower) ∈
      extract_anchors "text [ABC-DEF-1] more" :=
  (c7_anchors_superset_of_lower_req_ids "text [ABC-DEF-1] more").2
    "ABC-DEF-1" (by decide)

/-- Preservation of a predicate along a left fold. -/
theorem foldl_preserve {α σ : Type} {P : σ → Prop} {f : σ → α → σ}
    (hf : ∀ s a, P s → P (f s a)) :
    ∀ (l : List α) (s : σ), P s → P (l.foldl f s) := by
  intro l
  induction l with
  | nil => intro s hs; exact hs
  | cons a t ih => intro s hs; exact ih (f s a) (hf s a hs)

theorem critInvariant_processLink (v : Validator) (dn : String) (st : VState)
    (lk : String × String) (h : critInvariant st) :
    critInvariant (processLink v dn st lk) := by
  simp only [critInvariant, processLink] at h ⊢
  by_cases hr : (validate_link v dn lk.1 lk.2).1 = true
  · simpa [hr] using h
  · by_cases hc : critTarget lk.2 = true
    · simp [hr, hc, List.filter_append, List.map_append, h, critLine]
    · simp [hr, hc, List.filter_append, List.map_append, h]

theorem critInvariant_processReq (v : Validator) (dn : String) (st : VState)
    (rid : String) (h : critInvariant st) :
    critInvariant (processReq v dn st rid) := by
  simp only [critInvariant, processReq] at h ⊢
  by_cases hr : (validate_requirement_reference v.requirement_ids rid).1 = true
  · simpa [hr] using h
  · simpa [hr] using h

theorem critInvariant_processOrphan (dn : String) (st : VState) (ref : String)
    (h : critInvariant st) : critInvariant (processOrphan dn st ref) := by
  simpa [critInvariant, processOrphan] using h

theorem critInvariant_processDoc (v : Validator) (st : VState) (d : Document)
    (h : critInvariant st) : critInvariant (processDoc v st d) := by
  unfold processDoc
  apply foldl_preserve (fun s a hs => critInvariant_processOrphan d.name s a hs)
  apply foldl_preserve (fun s a hs => critInvariant_processReq v d.name s a hs)
  apply foldl_preserve (fun s a hs => critInvariant_processLink v d.name s a hs)
  exact h

/--
Claim C6.  Over any corpus, the critical-issues list is exactly the list
of broken links whose target mentions SPEC016 or SPEC017, each formatted
as `file: error`; broken links to other targets and valid links never
contribute an entry.
-/
theorem c6_critical_issues_characterization (docs : List Document) :
    (validate_all docs).critical_issues =
      ((validate_all docs).broken_links.filter
        (fun b => critTarget b.link_target)).map critLine := by
  have : critInvariant (validate_all docs) := by
    unfold validate_all
    apply foldl_preserve
      (fun s a hs => critInvariant_processDoc (mkValidator docs) s a hs)
    simp [critInvariant, initState]
  exact this

theorem validLeTotal_processLink (v : Validator) (dn : String) (st : VState)
    (lk : String × String) (h : validLeTotal st) :
    validLeTotal (processLink v dn st lk) := by
  simp only [validLeTotal, processLink] at h ⊢
  by_cases hr : (validate_link v dn lk.1 lk.2).1 = true
  · simp [hr]; omega
  · by_cases hc : critTarget lk.2 = true
    · simp [hr, hc]; omega
    · simp [hr, hc]; omega

theorem validLeTotal_processDoc (v : Validator) (st : VState) (d : Document)
    (h : validLeTotal st) : validLeTotal (processDoc v st d) := by
  unfold processDoc
  apply foldl_preserve (f := processOrphan d.name)
    (fun s a hs => by simpa [validLeTotal, processOrphan] using hs)
  apply foldl_preserve (f := processReq v d.name)
    (fun s a hs => by
      simp only [validLeTotal, processReq] at hs ⊢
      by_cases hr : (validate_requirement_reference v.requirement_ids a).1 = true
      · simpa [hr] using hs
      · simpa [hr] using hs)
  apply foldl_preserve (fun s a hs => validLeTotal_processLink v d.name s a hs)
  exact h

theorem validate_all_valid_le_total (docs : List Document) :
    (validate_all docs).valid_links ≤ (validate_all docs).total_links := by
  have : validLeTotal (validate_all docs) := by
    unfold validate_all
    apply foldl_preserve
      (fun s a hs => validLeTotal_processDoc (mkValidator docs) s a hs)
    simp [validLeTotal, initState]
  exact this

theorem rnde_cases (x : ℚ) : rnde x = ⌊x⌋ ∨ rnde x = ⌊x⌋ + 1 := by
  unfold rnde
  split
  · exact Or.inl rfl
  split
  · exact Or.inr rfl
  split
  · exact Or.inl rfl
  · exact Or.inr rfl

theorem floor_le_rnde (x : ℚ) : ⌊x⌋ ≤ rnde x := by
  rcases rnde_cases x with h | h <;> omega

theorem rnde_le_floor_add_one (x : ℚ) : rnde x ≤ ⌊x⌋ + 1 := by
  rcases rnde_cases x with h | h <;> omega

theorem rnde_err_lo (x : ℚ) : x - 1/2 ≤ (rnde x : ℚ) := by
  have hfl : (⌊x⌋ : ℚ) ≤ x := Int.floor_le x
  have hfl2 : x < ⌊x⌋ + 1 := Int.lt_floor_add_one x
  unfold rnde
  split
  · linarith
  split
  · push_cast
    linarith
  split
  · linarith
  · push_cast
    linarith

theorem rnde_err_hi (x : ℚ) : (rnde x : ℚ) ≤ x + 1/2 := by
  have hfl : (⌊x⌋ : ℚ) ≤ x := Int.floor_le x
  unfold rnde
  split
  · linarith
  · rename_i h1
    push_cast at h1 ⊢
    split
    · linarith
    · split <;> linarith

theorem rnde_mono {x y : ℚ} (h : x ≤ y) : rnde x ≤ rnde y := by
  have hf : ⌊x⌋ ≤ ⌊y⌋ := Int.floor_le_floor h
  rcases eq_or_lt_of_le hf with heq | hlt
  · have hfr : x - ⌊x⌋ ≤ y - ⌊y⌋ := by
      rw [← heq]
      linarith
    unfold rnde
    rw [← heq]
    split_ifs <;> first | omega | linarith
  · have h1 := rnde_le_floor_add_one x
    have h2 := floor_le_rnde y
    omega

/-- Uniqueness of the base-2 logarithm, for evaluating `Int.log` at
concrete rationals. -/
theorem int_log_eq (q : ℚ) (m : ℤ) (h1 : (2:ℚ) ^ m ≤ q) (h2 : q < (2:ℚ) ^ (m + 1)) :
    Int.log 2 q = m := by
  have h0 : (0:ℚ) < q := lt_of_lt_of_le (by positivity) h1
  have hA : (2:ℚ) ^ Int.log 2 q ≤ q := by
    have := Int.zpow_log_le_self (b := 2) (by norm_num) h0
    simpa using this
  have hB : q < (2:ℚ) ^ (Int.log 2 q + 1) := by
    have := Int.lt_zpow_succ_log_self (b := 2) (by norm_num) q
    simpa using this
  by_contra hne
  rcases lt_or_gt_of_ne hne with hlt | hgt
  · have : (2:ℚ) ^ (Int.log 2 q + 1) ≤ 2 ^ m :=
      zpow_le_zpow_right₀ (by norm_num) (by omega)
    linarith
  · have : (2:ℚ) ^ (m + 1) ≤ 2 ^ (Int.log 2 q) :=
      zpow_le_zpow_right₀ (by norm_num) (by omega)
    linarith

/-- The scaled significand of a positive rational lies in `[2^52, 2^53)`. -/
theorem fp64pos_bracket {q : ℚ} (hq : 0 < q) :
    (2:ℚ) ^ (52:ℤ) ≤ q / 2 ^ (Int.log 2 q - 52) ∧
      q / 2 ^ (Int.log 2 q - 52) < (2:ℚ) ^ (53:ℤ) := by
  have h2e : (0:ℚ) < 2 ^ (Int.log 2 q - 52) := by positivity
  have hA : (2:ℚ) ^ Int.log 2 q ≤ q := by
    have := Int.zpow_log_le_self (b := 2) (by norm_num) hq
    simpa using this
  have hB : q < (2:ℚ) ^ (Int.log 2 q + 1) := by
    have := Int.lt_zpow_succ_log_self (b := 2) (by norm_num) q
    simpa using this
  constructor
  · rw [le_div_iff₀ h2e, ← zpow_add₀ (two_ne_zero (α := ℚ))]
    rw [show (52:ℤ) + (Int.log 2 q - 52) = Int.log 2 q from by omega]
    exact hA
  · rw [div_lt_iff₀ h2e, ← zpow_add₀ (two_ne_zero (α := ℚ))]
    rw [show (53:ℤ) + (Int.log 2 q - 52) = Int.log 2 q + 1 from by omega]
    exact hB

theorem fp64pos_floor_bracket {q : ℚ} (hq : 0 < q) :
    (4503599627370496 : ℤ) ≤ ⌊q / 2 ^ (Int.log 2 q - 52)⌋ ∧
      ⌊q / 2 ^ (Int.log 2 q - 52)⌋ < 9007199254740992 := by
  obtain ⟨h1, h2⟩ := fp64pos_bracket hq
  constructor
  · rw [Int.le_floor]
    calc ((4503599627370496 : ℤ) : ℚ) = (2:ℚ) ^ (52:ℤ) := by norm_num
    _ ≤ _ := h1
  · rw [Int.floor_lt]
    calc q / 2 ^ (Int.log 2 q - 52) < (2:ℚ) ^ (53:ℤ) := h2
    _ = ((9007199254740992 : ℤ) : ℚ) := by norm_num

theorem fp64pos_pos {q : ℚ} (hq : 0 < q) : 0 < fp64pos q := by
  obtain ⟨h1, _⟩ := fp64pos_floor_bracket hq
  have hm : (0:ℤ) < rnde (q / 2 ^ (Int.log 2 q - 52)) := by
    have := floor_le_rnde (q / 2 ^ (Int.log 2 q - 52))
    omega
  unfold fp64pos
  have h2e : (0:ℚ) < 2 ^ (Int.log 2 q - 52) := by positivity
  have : (0:ℚ) < (rnde (q / 2 ^ (Int.log 2 q - 52)) : ℚ) := by exact_mod_cast hm
  positivity

theorem fp64pos_le {q : ℚ} (hq : 0 < q) :
    fp64pos q ≤ (2:ℚ) ^ (Int.log 2 q + 1) := by
  obtain ⟨_, h2⟩ := fp64pos_floor_bracket hq
  have hm : rnde (q / 2 ^ (Int.log 2 q - 52)) ≤ 9007199254740992 := by
    have := rnde_le_floor_add_one (q / 2 ^ (Int.log 2 q - 52))
    omega
  unfold fp64pos
  have h2e : (0:ℚ) < 2 ^ (Int.log 2 q - 52) := by positivity
  calc (rnde (q / 2 ^ (Int.log 2 q - 52)) : ℚ) * 2 ^ (Int.log 2 q - 52)
      ≤ (9007199254740992 : ℚ) * 2 ^ (Int.log 2 q - 52) := by
        apply mul_le_mul_of_nonneg_right _ (le_of_lt h2e)
        exact_mod_cast hm
    _ = (2:ℚ) ^ (53:ℤ) * 2 ^ (Int.log 2 q - 52) := by norm_num
    _ = (2:ℚ) ^ (Int.log 2 q + 1) := by
        rw [← zpow_add₀ (two_ne_zero (α := ℚ))]
        congr 1
        omega

theorem le_fp64pos {q : ℚ} (hq : 0 < q) :
    (2:ℚ) ^ (Int.log 2 q) ≤ fp64pos q := by
  obtain ⟨h1, _⟩ := fp64pos_floor_bracket hq
  have hm : (4503599627370496 : ℤ) ≤ rnde (q / 2 ^ (Int.log 2 q - 52)) := by
    have := floor_le_rnde (q / 2 ^ (Int.log 2 q - 52))
    omega
  unfold fp64pos
  have h2e : (0:ℚ) < 2 ^ (Int.log 2 q - 52) := by positivity
  calc (2:ℚ) ^ (Int.log 2 q) = (2:ℚ) ^ (52:ℤ) * 2 ^ (Int.log 2 q - 52) := by
        rw [← zpow_add₀ (two_ne_zero (α := ℚ))]
        congr 1
        omega
    _ = (4503599627370496 : ℚ) * 2 ^ (Int.log 2 q - 52) := by norm_num
    _ ≤ (rnde (q / 2 ^ (Int.log 2 q - 52)) : ℚ) * 2 ^ (Int.log 2 q - 52) := by
        apply mul_le_mul_of_nonneg_right _ (le_of_lt h2e)
        exact_mod_cast hm

/-- Correct rounding loses at most half an ulp: the relative error of
`fp64pos` is at most `2^-53`. -/
theorem fp64pos_err {q : ℚ} (hq : 0 < q) :
    q - q / 2 ^ (53:ℕ) ≤ fp64pos q ∧ fp64pos q ≤ q + q / 2 ^ (53:ℕ) := by
  have h2e : (0:ℚ) < 2 ^ (Int.log 2 q - 52) := by positivity
  have hA : (2:ℚ) ^ Int.log 2 q ≤ q := by
    have := Int.zpow_log_le_self (b := 2) (by norm_num) hq
    simpa using this
  have hhalf : (1/2 : ℚ) * 2 ^ (Int.log 2 q - 52) ≤ q / 2 ^ (53:ℕ) := by
    have e1 : (1/2 : ℚ) * 2 ^ (Int.log 2 q - 52) = 2 ^ (Int.log 2 q - 53) := by
      rw [show Int.log 2 q - 52 = (Int.log 2 q - 53) + 1 from by omega,
        zpow_add₀ (two_ne_zero (α := ℚ)), zpow_one]
      ring
    have e2 : q / 2 ^ (53:ℕ) = q * 2 ^ (-53 : ℤ) := by
      rw [zpow_neg, div_eq_mul_inv]
      norm_cast
    have e3 : (2:ℚ) ^ (Int.log 2 q - 53) = 2 ^ Int.log 2 q * 2 ^ (-53:ℤ) := by
      rw [← zpow_add₀ (two_ne_zero (α := ℚ))]
      congr 1
    rw [e1, e2, e3]
    apply mul_le_mul_of_nonneg_right hA
    positivity
  have hexp : ∀ c : ℚ, (q / 2 ^ (Int.log 2 q - 52) + c) * 2 ^ (Int.log 2 q - 52)
      = q + c * 2 ^ (Int.log 2 q - 52) := by
    intro c
    field_simp
  constructor
  · have hlo := mul_le_mul_of_nonneg_right
      (rnde_err_lo (q / 2 ^ (Int.log 2 q - 52))) (le_of_lt h2e)
    rw [sub_eq_add_neg, hexp (-(1/2))] at hlo
    unfold fp64pos
    linarith
  · have hhi := mul_le_mul_of_nonneg_right
      (rnde_err_hi (q / 2 ^ (Int.log 2 q - 52))) (le_of_lt h2e)
    rw [hexp (1/2)] at hhi
    unfold fp64pos
    linarith

theorem fp64round_zero : fp64round 0 = 0 := by
  rw [fp64round, if_pos rfl]

theorem fp64round_of_pos {q : ℚ} (hq : 0 < q) : fp64round q = fp64pos q := by
  rw [fp64round, if_neg (ne_of_gt hq), if_neg (not_lt.mpr (le_of_lt hq))]

theorem fp64round_nonneg {q : ℚ} (hq : 0 ≤ q) : 0 ≤ fp64round q := by
  rcases eq_or_lt_of_le hq with h0 | hpos
  · rw [← h0, fp64round_zero]
  · rw [fp64round_of_pos hpos]
    exact le_of_lt (fp64pos_pos hpos)

/-- Correctly rounded binary64 rounding is monotone on the nonnegative
rationals. -/
theorem fp64round_mono {a b : ℚ} (ha : 0 ≤ a) (h : a ≤ b) :
    fp64round a ≤ fp64round b := by
  rcases eq_or_lt_of_le ha with ha0 | hapos
  · rw [← ha0, fp64round_zero]
    exact fp64round_nonneg (le_trans ha h)
  · have hbpos : 0 < b := lt_of_lt_of_le hapos h
    rw [fp64round_of_pos hapos, fp64round_of_pos hbpos]
    have hL : Int.log 2 a ≤ Int.log 2 b := Int.log_mono_right hapos h
    rcases eq_or_lt_of_le hL with hLeq | hLlt
    · unfold fp64pos
      rw [← hLeq]
      have h2e : (0:ℚ) < 2 ^ (Int.log 2 a - 52) := by positivity
      apply mul_le_mul_of_nonneg_right _ (le_of_lt h2e)
      have hdiv : a / 2 ^ (Int.log 2 a - 52) ≤ b / 2 ^ (Int.log 2 a - 52) :=
        (div_le_div_iff_of_pos_right h2e).mpr h
      exact_mod_cast rnde_mono hdiv
    · calc fp64pos a ≤ 2 ^ (Int.log 2 a + 1) := fp64pos_le hapos
        _ ≤ (2:ℚ) ^ (Int.log 2 b) := zpow_le_zpow_right₀ (by norm_num) (by omega)
        _ ≤ fp64pos b := le_fp64pos hbpos

theorem fp64round_err {q : ℚ} (hq : 0 < q) :
    q - q / 2 ^ (53:ℕ) ≤ fp64round q ∧ fp64round q ≤ q + q / 2 ^ (53:ℕ) := by
  rw [fp64round_of_pos hq]
  exact fp64pos_err hq

theorem rnde_eval_of_floor (x : ℚ) (fl : ℤ) (hfl : ⌊x⌋ = fl) (h : x - fl < 1/2) :
    rnde x = fl := by
  rw [rnde, hfl, if_pos h]

theorem fp64round_eval_pos (q : ℚ) (L m : ℤ) (hq : 0 < q)
    (h1 : (2:ℚ) ^ L ≤ q) (h2 : q < (2:ℚ) ^ (L + 1))
    (hm : rnde (q / 2 ^ (L - 52)) = m) :
    fp64round q = (m : ℚ) * 2 ^ (L - 52) := by
  rw [fp64round_of_pos hq, fp64pos, int_log_eq q L h1 h2, hm]

theorem fp64round_one : fp64round 1 = 1 := by
  have h := fp64round_eval_pos 1 0 4503599627370496 (by norm_num)
    (by norm_num) (by norm_num)
    (rnde_eval_of_floor _ _ (by norm_num) (by norm_num))
  rw [h]
  norm_num

theorem fp64round_hundred : fp64round 100 = 100 := by
  have h := fp64round_eval_pos 100 6 7036874417766400 (by norm_num)
    (by norm_num) (by norm_num)
    (rnde_eval_of_floor _ _ (by norm_num) (by norm_num))
  rw [h]
  norm_num

/-- The double nearest to 2/3 (the quotient of the 2-of-3-valid run). -/
theorem fp64round_two_thirds :
    fp64round (2/3) = 6004799503160661 / 9007199254740992 := by
  have h := fp64round_eval_pos (2/3) (-1) 6004799503160661 (by norm_num)
    (by norm_num) (by norm_num)
    (rnde_eval_of_floor _ _ (by norm_num) (by norm_num))
  rw [h]
  norm_num

/-- The double nearest to 29/100, which is slightly below 0.29; its
product with 100 rounds to 28.999999999999996, whose truncation is 28. -/
theorem fp64round_29_100 :
    fp64round (29/100) = 5224175567749775 / 18014398509481984 := by
  have h := fp64round_eval_pos (29/100) (-2) 5224175567749775 (by norm_num)
    (by norm_num) (by norm_num)
    (rnde_eval_of_floor _ _ (by norm_num) (by norm_num))
  rw [h]
  norm_num

theorem float_percent_3_2 : float_percent 3 2 = 66 := by
  have hcast : float_percent 3 2 = ⌊fp64round (fp64round ((2:ℚ)/3) * 100)⌋₊ := by
    unfold float_percent
    norm_num
  rw [hcast, fp64round_two_thirds]
  have h := fp64round_eval_pos ((6004799503160661 / 9007199254740992 : ℚ) * 100)
    6 4691249611844266 (by norm_num) (by norm_num) (by norm_num)
    (rnde_eval_of_floor _ _ (by norm_num) (by norm_num))
  rw [h]
  rw [Nat.floor_eq_iff (by norm_num)]
  norm_num

theorem float_percent_100_29 : float_percent 100 29 = 28 := by
  have hcast : float_percent 100 29 = ⌊fp64round (fp64round ((29:ℚ)/100) * 100)⌋₊ := by
    unfold float_percent
    norm_num
  rw [hcast, fp64round_29_100]
  have h := fp64round_eval_pos ((5224175567749775 / 18014398509481984 : ℚ) * 100)
    4 8162774324609023 (by norm_num) (by norm_num) (by norm_num)
    (rnde_eval_of_floor _ _ (by norm_num) (by norm_num))
  rw [h]
  rw [Nat.floor_eq_iff (by norm_num)]
  norm_num

/-- The doubly rounded percentage stays within half a point of the exact
one when the quotient is at most 1. -/
theorem float_close (q : ℚ) (hq0 : 0 < q) (hq1 : q ≤ 1) :
    100 * q - 1/2 ≤ fp64round (fp64round q * 100) ∧
      fp64round (fp64round q * 100) ≤ 100 * q + 1/2 := by
  obtain ⟨ha1, ha2⟩ := fp64round_err hq0
  have hapos : 0 < fp64round q := by
    rw [fp64round_of_pos hq0]
    exact fp64pos_pos hq0
  have hy0 : 0 < fp64round q * 100 := by positivity
  obtain ⟨hb1, hb2⟩ := fp64round_err hy0
  norm_num at ha1 ha2 hb1 hb2
  constructor
  · nlinarith [ha1, ha2, hb1, hb2, hq1, hq0, hapos]
  · nlinarith [ha1, ha2, hb1, hb2, hq1, hq0, hapos]

theorem float_percent_zero_val (t : Nat) : float_percent t 0 = 0 := by
  unfold float_percent
  simp [fp64round_zero]

/-- The per-run percentage is at most 100 when no more links are valid
than were examined. -/
theorem float_percent_le_100 (t v : Nat) (hvt : v ≤ t) :
    float_percent t v ≤ 100 := by
  by_cases ht : 0 < t
  · have hq0 : (0:ℚ) ≤ (v:ℚ) / (t:ℚ) := by positivity
    have hq1 : (v:ℚ) / (t:ℚ) ≤ 1 :=
      div_le_one_of_le₀ (by exact_mod_cast hvt) (by positivity)
    have h2 : fp64round ((v:ℚ) / (t:ℚ)) ≤ 1 :=
      le_trans (fp64round_mono hq0 hq1) (le_of_eq fp64round_one)
    have h2n : 0 ≤ fp64round ((v:ℚ) / (t:ℚ)) := fp64round_nonneg hq0
    have h3 : fp64round ((v:ℚ) / (t:ℚ)) * 100 ≤ 100 := by nlinarith
    have h3n : (0:ℚ) ≤ fp64round ((v:ℚ) / (t:ℚ)) * 100 := by positivity
    have h4 : fp64round (fp64round ((v:ℚ) / (t:ℚ)) * 100) ≤ 100 :=
      le_trans (fp64round_mono h3n h3) (le_of_eq fp64round_hundred)
    unfold float_percent
    calc ⌊fp64round (fp64round ((v:ℚ) / (t:ℚ)) * 100)⌋₊ ≤ ⌊(100:ℚ)⌋₊ :=
          Nat.floor_le_floor h4
      _ = 100 := by norm_num
  · have hv0 : v = 0 := by omega
    subst hv0
    rw [float_percent_zero_val]
    omega

/-- Adding one more (broken) link never raises the percentage. -/
theorem float_percent_succ_le (t v : Nat) (ht : 0 < t) :
    float_percent (t + 1) v ≤ float_percent t v := by
  unfold float_percent
  push_cast
  have h2e : (0:ℚ) < (t:ℚ) := by exact_mod_cast ht
  have hdiv : (v:ℚ) / ((t:ℚ) + 1) ≤ (v:ℚ) / (t:ℚ) := by
    gcongr
    linarith
  have h0 : (0:ℚ) ≤ (v:ℚ) / ((t:ℚ) + 1) := by positivity
  have h1 := fp64round_mono h0 hdiv
  have h2 : fp64round ((v:ℚ) / ((t:ℚ) + 1)) * 100 ≤
      fp64round ((v:ℚ) / (t:ℚ)) * 100 :=
    mul_le_mul_of_nonneg_right h1 (by norm_num)
  have h2n : (0:ℚ) ≤ fp64round ((v:ℚ) / ((t:ℚ) + 1)) * 100 := by
    have := fp64round_nonneg h0
    positivity
  exact Nat.floor_le_floor (fp64round_mono h2n h2)

/-- The percentage stays within one point of the exact truncated ratio. -/
theorem float_percent_within_one (t v : Nat) (ht : 0 < t) (hvt : v ≤ t) :
    ⌊(100 * (v:ℚ)) / (t:ℚ)⌋ - 1 ≤ (float_percent t v : ℤ) ∧
      (float_percent t v : ℤ) ≤ ⌊(100 * (v:ℚ)) / (t:ℚ)⌋ + 1 := by
  by_cases hv : v = 0
  · subst hv
    rw [float_percent_zero_val]
    norm_num
  · have hv0 : 0 < v := Nat.pos_of_ne_zero hv
    have hq0 : (0:ℚ) < (v:ℚ) / (t:ℚ) :=
      div_pos (by exact_mod_cast hv0) (by exact_mod_cast ht)
    have hq1 : (v:ℚ) / (t:ℚ) ≤ 1 :=
      div_le_one_of_le₀ (by exact_mod_cast hvt) (by positivity)
    obtain ⟨hc1, hc2⟩ := float_close ((v:ℚ) / (t:ℚ)) hq0 hq1
    have hnn : (0:ℚ) ≤ fp64round (fp64round ((v:ℚ) / (t:ℚ)) * 100) := by
      apply fp64round_nonneg
      have := fp64round_nonneg (le_of_lt hq0)
      positivity
    have hcast : (float_percent t v : ℤ) =
        ⌊fp64round (fp64round ((v:ℚ) / (t:ℚ)) * 100)⌋ := by
      unfold float_percent
      exact Int.natCast_floor_eq_floor hnn
    have heq : (100 * (v:ℚ)) / (t:ℚ) = 100 * ((v:ℚ) / (t:ℚ)) :=
      mul_div_assoc 100 _ _
    rw [hcast, heq]
    constructor
    · have h := Int.floor_le_floor (α := ℚ)
        (show 100 * ((v:ℚ) / (t:ℚ)) - 1 ≤
          fp64round (fp64round ((v:ℚ) / (t:ℚ)) * 100) from by linarith)
      rw [Int.floor_sub_one] at h
      omega
    · have h := Int.floor_le_floor (α := ℚ)
        (show fp64round (fp64round ((v:ℚ) / (t:ℚ)) * 100) ≤
          100 * ((v:ℚ) / (t:ℚ)) + 1 from by linarith)
      rw [Int.floor_add_one] at h
      omega

theorem health_score_le_100 (t v k : Nat) (hvt : v ≤ t) :
    health_score_calc t v k ≤ 100 := by
  unfold health_score_calc
  have hs_le : (if 0 < t then float_percent t v else 100) ≤ 100 := by
    by_cases ht : 0 < t
    · rw [if_pos ht]
      exact float_percent_le_100 t v hvt
    · simp [ht]
  by_cases hk : k ≠ 0
  · rw [if_pos hk]
    omega
  · rw [if_neg hk]
    exact hs_le

/--
Claim C8.  The health score never rises when a broken link is added
(total grows, valid fixed) or when an invalid requirement ID is added,
all other counts held fixed; and on every run the score lies in [0, 100]
(the lower bound holds by the score being a natural number).
-/
theorem c8_health_score_monotonicity_and_range :
    (∀ t v k : Nat, v ≤ t →
      health_score_calc (t + 1) v k ≤ health_score_calc t v k) ∧
    (∀ t v k : Nat,
      health_score_calc t v (k + 1) ≤ health_score_calc t v k) ∧
    (∀ t v k : Nat, v ≤ t → health_score_calc t v k ≤ 100) ∧
    (∀ docs : List Document,
      (validate_all docs).valid_links ≤ (validate_all docs).total_links ∧
      (generate_report (validate_all docs)).health_score ≤ 100) := by
  refine ⟨?_, ?_, health_score_le_100, ?_⟩
  · intro t v k hvt
    unfold health_score_calc
    by_cases ht : 0 < t
    · have hdiv : float_percent (t + 1) v ≤ float_percent t v :=
        float_percent_succ_le t v ht
      rw [if_pos (Nat.succ_pos t), if_pos ht]
      by_cases hk : k ≠ 0
      · rw [if_pos hk, if_pos hk]
        omega
      · rw [if_neg hk, if_neg hk]
        omega
    · have ht0 : t = 0 := by omega
      have hv0 : v = 0 := by omega
      subst ht0; subst hv0
      have h10 : float_percent (0 + 1) 0 = 0 := float_percent_zero_val (0 + 1)
      rw [if_pos (Nat.succ_pos 0), if_neg ht]
      by_cases hk : k ≠ 0
      · rw [if_pos hk, if_pos hk]
        omega
      · rw [if_neg hk, if_neg hk]
        omega
  · intro t v k
    unfold health_score_calc
    set hs := if 0 < t then float_percent t v else 100 with hhs
    have hk1 : k + 1 ≠ 0 := Nat.succ_ne_zero k
    by_cases hk : k ≠ 0
    · rw [if_pos hk1, if_pos hk]
      omega
    · rw [if_pos hk1, if_neg hk]
      omega
  · intro docs
    refine ⟨validate_all_valid_le_total docs, ?_⟩
    have h := health_score_le_100 (validate_all docs).total_links
      (validate_all docs).valid_links
      (validate_all docs).invalid_requirement_ids.length
      (validate_all_valid_le_total docs)
    simpa [generate_report] using h

/-- Witness for C8 at concrete counts and a concrete one-document run. -/
theorem c8_health_score_monotonicity_and_range_witness :
    health_score_calc 4 2 0 ≤ health_score_calc 3 2 0 ∧
    health_score_calc 3 2 1 ≤ health_score_calc 3 2 0 ∧
    health_score_calc 3 2 0 ≤ 100 ∧
    ((validate_all [⟨"A.md", "[a](#x)\n# x\n"⟩]).valid_links ≤
        (validate_all [⟨"A.md", "[a](#x)\n# x\n"⟩]).total_links ∧
      (generate_report (validate_all [⟨"A.md", "[a](#x)\n# x\n"⟩])).health_score ≤ 100) :=
  ⟨c8_health_score_monotonicity_and_range.1 3 2 0 (by decide),
    c8_health_score_monotonicity_and_range.2.1 3 2 0,
    c8_health_score_monotonicity_and_range.2.2.1 3 2 0 (by decide),
    c8_health_score_monotonicity_and_range.2.2.2 [⟨"A.md", "[a](#x)\n# x\n"⟩]⟩

/--
Claim C1, counterexample.  A one-document run with three links of which
two are valid: the report's health score is 66 = trunc(100*2/3), while
the claimed round(100*2/3) is 67.  The invalid-requirement adjustment is
vacuous here (no invalid requirement IDs), so the discrepancy is entirely
in the rounding mode.
-/
theorem c1_health_score_round_counterexample :
    (validate_all [⟨"A.md", "[a](#x)\n[b](#x)\n[c](#y)\n# x\n"⟩]).total_links = 3 ∧
    (validate_all [⟨"A.md", "[a](#x)\n[b](#x)\n[c](#y)\n# x\n"⟩]).valid_links = 2 ∧
    (validate_all [⟨"A.md", "[a](#x)\n[b](#x)\n[c](#y)\n# x\n"⟩]).invalid_requirement_ids
      = [] ∧
    (generate_report (validate_all
      [⟨"A.md", "[a](#x)\n[b](#x)\n[c](#y)\n# x\n"⟩])).health_score = 66 ∧
    round ((100 : ℚ) * 2 / 3) = 67 := by
  refine ⟨by decide, by decide, by decide, ?_, by norm_num [round_eq]⟩
  have h1 : (validate_all [⟨"A.md", "[a](#x)\n[b](#x)\n[c](#y)\n# x\n"⟩]).total_links
      = 3 := by decide
  have h2 : (validate_all [⟨"A.md", "[a](#x)\n[b](#x)\n[c](#y)\n# x\n"⟩]).valid_links
      = 2 := by decide
  have h3 : (validate_all
      [⟨"A.md", "[a](#x)\n[b](#x)\n[c](#y)\n# x\n"⟩]).invalid_requirement_ids.length
      = 0 := by decide
  calc (generate_report (validate_all
        [⟨"A.md", "[a](#x)\n[b](#x)\n[c](#y)\n# x\n"⟩])).health_score
      = health_score_calc
          (validate_all [⟨"A.md", "[a](#x)\n[b](#x)\n[c](#y)\n# x\n"⟩]).total_links
          (validate_all [⟨"A.md", "[a](#x)\n[b](#x)\n[c](#y)\n# x\n"⟩]).valid_links
          (validate_all
            [⟨"A.md", "[a](#x)\n[b](#x)\n[c](#y)\n# x\n"⟩]).invalid_requirement_ids.length
        := rfl
    _ = health_score_calc 3 2 0 := by rw [h1, h2, h3]
    _ = 66 := by
        unfold health_score_calc
        simpa using float_percent_3_2

/--
Claim C1, amended.  The health score is the double-precision truncation
`int((valid/total)*100)` when total > 0 — the floor of the correctly
rounded product of the correctly rounded quotient, not the nearest-integer
rounding of the exact ratio — and 100 when total = 0; then 2 points are
subtracted per invalid-requirement-ID issue with the result floored at 0.
The float percentage stays within one point of the exact truncated ratio;
it diverges both from nearest-integer rounding (66 vs 67 at 2 valid of 3)
and, by floating-point double rounding, from the exact truncation itself
(28 vs 29 at 29 valid of 100).
-/
theorem c1_amended_health_score_truncates :
    (∀ t v k : Nat, (health_score_calc t v k : ℤ) =
      max 0 (((if 0 < t then float_percent t v else 100 : ℕ) : ℤ) - 2 * k)) ∧
    (∀ t v : Nat, 0 < t → v ≤ t →
      ⌊(100 * (v:ℚ)) / (t:ℚ)⌋ - 1 ≤ (float_percent t v : ℤ) ∧
        (float_percent t v : ℤ) ≤ ⌊(100 * (v:ℚ)) / (t:ℚ)⌋ + 1) ∧
    float_percent 3 2 = 66 ∧ round ((100:ℚ) * 2 / 3) = 67 ∧
    float_percent 100 29 = 28 ∧ ⌊(100 * (29:ℚ)) / 100⌋ = 29 := by
  refine ⟨?_, float_percent_within_one, float_percent_3_2, by norm_num [round_eq],
    float_percent_100_29, by norm_num⟩
  intro t v k
  unfold health_score_calc
  by_cases ht : 0 < t
  · simp only [if_pos ht]
    by_cases hk : k ≠ 0
    · rw [if_pos hk]
      omega
    · rw [if_neg hk]
      omega
  · simp only [if_neg ht]
    by_cases hk : k ≠ 0
    · rw [if_pos hk]
      omega
    · rw [if_neg hk]
      omega

/-- Witness for the amended C1 at concrete counts (3 links, 2 valid, one
invalid requirement ID). -/
theorem c1_amended_health_score_truncates_witness :
    (health_score_calc 3 2 1 : ℤ) =
      max 0 (((if 0 < 3 then float_percent 3 2 else 100 : ℕ) : ℤ) - 2 * 1) ∧
    (⌊(100 * ((2:ℕ):ℚ)) / ((3:ℕ):ℚ)⌋ - 1 ≤ (float_percent 3 2 : ℤ) ∧
      (float_percent 3 2 : ℤ) ≤ ⌊(100 * ((2:ℕ):ℚ)) / ((3:ℕ):ℚ)⌋ + 1) :=
  ⟨c1_amended_health_score_truncates.1 3 2 1,
    c1_amended_health_score_truncates.2.1 3 2 (by decide) (by decide)⟩

theorem toNat_ofNat_of_lt (n : Nat) (h : n < 55296) : (Char.ofNat n).toNat = n := by
  have hv : n.isValidChar := Or.inl h
  rw [Char.ofNat, dif_pos hv]
  simp [Char.ofNatAux, Char.toNat, UInt32.toNat, BitVec.toNat_ofNatLt]

theorem toLower_toNat (c : Char) : (Char.toLower c).toNat =
    if c.toNat ≥ 65 ∧ c.toNat ≤ 90 then c.toNat + 32 else c.toNat := by
  simp only [Char.toLower]
  by_cases h : c.toNat ≥ 65 ∧ c.toNat ≤ 90
  · rw [if_pos h, if_pos h, toNat_ofNat_of_lt _ (by omega)]
  · rw [if_neg h, if_neg h]

theorem toLower_eq_self_of_not (c : Char)
    (h : ¬(c.toNat ≥ 65 ∧ c.toNat ≤ 90)) : Char.toLower c = c := by
  simp only [Char.toLower]
  rw [if_neg h]

theorem toLower_idem (c : Char) :
    Char.toLower (Char.toLower c) = Char.toLower c := by
  apply toLower_eq_self_of_not
  rw [toLower_toNat c]
  by_cases h : c.toNat ≥ 65 ∧ c.toNat ≤ 90
  · rw [if_pos h]
    omega
  · rw [if_neg h]
    exact h

theorem map_toLower_idem (l : List Char) :
    (l.map Char.toLower).map Char.toLower = l.map Char.toLower := by
  rw [List.map_map]
  exact List.map_congr_left (fun a _ => toLower_idem a)

/--
Claim C4, counterexample.  The code strips leading/trailing whitespace
before collapsing, but it never trims hyphens: the header title `-x`
slugifies to `-x`, while the claimed rule (trailing/leading hyphens
trimmed) yields `x`.
-/
theorem c4_slug_counterexample :
    extract_anchors "# -x" = ["-x"] ∧
    slugify "-x".toList = "-x".toList ∧
    slugifySpec "-x".toList = "x".toList ∧
    ("-x" : String) ≠ "x" :=
  ⟨by decide, by decide, by decide, by decide⟩

/--
Claim C4, amended.  The anchor of a section-header title is the title
lowercased, with non-word/non-space/non-hyphen characters removed,
leading/trailing whitespace stripped, and runs of whitespace collapsed to
single hyphens; hyphens already present at the edges are kept.
Slugification is deterministic and case-insensitive: lowercasing the
title first never changes the anchor, and in particular the headers
`# Hello World!` and `# hello world` both yield the anchor `hello-world`.
-/
theorem c4_amended_slugification :
    (∀ title : List Char, slugify (title.map Char.toLower) = slugify title) ∧
    extract_anchors "# Hello World!" = ["hello-world"] ∧
    extract_anchors "# hello world" = ["hello-world"] := by
  refine ⟨?_, by decide, by decide⟩
  intro title
  unfold slugify
  rw [map_toLower_idem]


theorem isEmpty_false_of_ne {α : Type} {l : List α} (h : l ≠ []) :
    l.isEmpty = false := by
  cases l with
  | nil => exact absurd rfl h
  | cons a t => rfl

theorem takeWhile_all {α : Type} {p : α → Bool} :
    ∀ {l : List α}, (∀ a ∈ l, p a = true) → l.takeWhile p = l := by
  intro l
  induction l with
  | nil => intro _; rfl
  | cons a t ih =>
    intro h
    simp [List.takeWhile_cons, h a (by simp), ih (fun x hx => h x (by simp [hx]))]

theorem dropWhile_all {α : Type} {p : α → Bool} :
    ∀ {l : List α}, (∀ a ∈ l, p a = true) → l.dropWhile p = [] := by
  intro l
  induction l with
  | nil => intro _; rfl
  | cons a t ih =>
    intro h
    simp [List.dropWhile_cons, h a (by simp), ih (fun x hx => h x (by simp [hx]))]

theorem takeWhile_append_stop {α : Type} {p : α → Bool} (b : α) {l₁ l₂ : List α}
    (h₁ : ∀ a ∈ l₁, p a = true) (hb : p b = false) :
    (l₁ ++ b :: l₂).takeWhile p = l₁ := by
  induction l₁ with
  | nil => simp [List.takeWhile_cons, hb]
  | cons a t ih =>
    simp [List.takeWhile_cons, h₁ a (by simp),
      ih (fun x hx => h₁ x (by simp [hx]))]

theorem dropWhile_append_stop {α : Type} {p : α → Bool} (b : α) {l₁ l₂ : List α}
    (h₁ : ∀ a ∈ l₁, p a = true) (hb : p b = false) :
    (l₁ ++ b :: l₂).dropWhile p = b :: l₂ := by
  induction l₁ with
  | nil => simp [List.dropWhile_cons, hb]
  | cons a t ih =>
    simp [List.dropWhile_cons, h₁ a (by simp),
      ih (fun x hx => h₁ x (by simp [hx]))]

theorem subLinksAux_nil : ∀ f, subLinksAux f [] = [] := by
  intro f
  cases f with
  | zero => rfl
  | succ n => rfl

theorem orphanAux_nil : ∀ f, orphanAux f [] = [] := by
  intro f
  cases f with
  | zero => rfl
  | succ n => rfl

theorem subLinksAux_cons (f : Nat) (c : Char) (cs : List Char) :
    subLinksAux (f + 1) (c :: cs) =
      match matchLinkAt (c :: cs) with
      | some (txt, _, rest) => txt ++ subLinksAux f rest
      | none => c :: subLinksAux f cs := rfl

theorem orphanAux_cons (f : Nat) (c : Char) (cs : List Char) :
    orphanAux (f + 1) (c :: cs) =
      match matchOrphanAt (c :: cs) with
      | some (tok, rest) => tok :: orphanAux f rest
      | none => orphanAux f cs := rfl

theorem ne_of_isUpperChar {c x : Char} (h : isUpperChar c = true)
    (hx : isUpperChar x = false) : c ≠ x := by
  intro he
  rw [he] at h
  rw [h] at hx
  exact absurd hx (by decide)

theorem ne_of_isDigitChar {c x : Char} (h : isDigitChar c = true)
    (hx : isDigitChar x = false) : c ≠ x := by
  intro he
  rw [he] at h
  rw [h] at hx
  exact absurd hx (by decide)


/--
Claim C10.  Orphan detection replaces every `[text](target)` link by its
link text before scanning, so a DBD-* or SRC-* token standing as the link
TEXT of a proper link survives the stripping and is reported as an
orphaned reference.  Stated for a document that is exactly such a link
`[token](target)`: the token (`lit` is the `DBD-`/`SRC-` family prefix,
`A` the uppercase category, `D` the digits) is reported even though it is
hyperlinked.
-/
theorem c10_link_text_orphan_survives (lit A D tgt : List Char)
    (hlit : lit = "DBD-".toList ∨ lit = "SRC-".toList)
    (hA : A ≠ []) (hAu : ∀ c ∈ A, isUpperChar c = true)
    (hD : D ≠ []) (hDd : ∀ c ∈ D, isDigitChar c = true)
    (htgt : tgt ≠ []) (htgtP : ∀ c ∈ tgt, c ≠ ')') :
    find_orphaned_references
      (String.mk ('[' :: ((lit ++ A ++ '-' :: D) ++ ']' :: '(' :: (tgt ++ [')'])))) =
      [String.mk (lit ++ A ++ '-' :: D)] := by
  have htok_ne : ∀ c ∈ lit ++ A ++ '-' :: D, c ≠ ']' := by
    intro c hc
    rcases List.mem_append.mp hc with hc | hc
    · rcases List.mem_append.mp hc with hc | hc
      · rcases hlit with h | h <;> subst h <;>
          · simp only [show "DBD-".toList = ['D', 'B', 'D', '-'] from rfl,
              show "SRC-".toList = ['S', 'R', 'C', '-'] from rfl,
              List.mem_cons, List.not_mem_nil, or_false] at hc
            rcases hc with rfl | rfl | rfl | rfl <;> decide
      · exact ne_of_isUpperChar (hAu c hc) (by decide)
    · rcases List.mem_cons.mp hc with hc | hc
      · subst hc; decide
      · exact ne_of_isDigitChar (hDd c hc) (by decide)
  have htokne : lit ++ A ++ '-' :: D ≠ [] := by
    rcases hlit with h | h <;> subst h <;> simp
  have htokB : ∀ a ∈ lit ++ A ++ '-' :: D,
      (fun x => decide (x ≠ ']')) a = true :=
    fun a ha => decide_eq_true (htok_ne a ha)
  have htgtB : ∀ a ∈ tgt, (fun x => decide (x ≠ ')')) a = true :=
    fun a ha => decide_eq_true (htgtP a ha)
  have htake1 : List.takeWhile (fun x => decide (x ≠ ']'))
      ((lit ++ A ++ '-' :: D) ++ ']' :: '(' :: (tgt ++ [')'])) =
      lit ++ A ++ '-' :: D :=
    takeWhile_append_stop ']' htokB (by decide)
  have hdrop1 : List.dropWhile (fun x => decide (x ≠ ']'))
      ((lit ++ A ++ '-' :: D) ++ ']' :: '(' :: (tgt ++ [')'])) =
      ']' :: '(' :: (tgt ++ [')']) :=
    dropWhile_append_stop ']' htokB (by decide)
  have htake2 : List.takeWhile (fun x => decide (x ≠ ')')) (tgt ++ [')']) = tgt :=
    takeWhile_append_stop ')' htgtB (by decide)
  have hdrop2 : List.dropWhile (fun x => decide (x ≠ ')')) (tgt ++ [')']) = [')'] :=
    dropWhile_append_stop ')' htgtB (by decide)
  have hmatch : matchLinkAt
      ('[' :: ((lit ++ A ++ '-' :: D) ++ ']' :: '(' :: (tgt ++ [')']))) =
      some (lit ++ A ++ '-' :: D, tgt, []) := by
    simp only [matchLinkAt, htake1, hdrop1, isEmpty_false_of_ne htokne,
      Bool.false_eq_true, if_false, htake2, hdrop2, isEmpty_false_of_ne htgt]
  have hstrip : stripLinks
      ('[' :: ((lit ++ A ++ '-' :: D) ++ ']' :: '(' :: (tgt ++ [')']))) =
      lit ++ A ++ '-' :: D := by
    rw [stripLinks, List.length_cons, subLinksAux_cons, hmatch]
    simp [subLinksAux_nil]
  have hpre : List.isPrefixOf lit (lit ++ (A ++ '-' :: D)) = true :=
    List.isPrefixOf_iff_prefix.mpr ⟨A ++ '-' :: D, rfl⟩
  have htakeA : List.takeWhile isUpperChar (A ++ '-' :: D) = A :=
    takeWhile_append_stop '-' hAu (by decide)
  have hdropA : List.dropWhile isUpperChar (A ++ '-' :: D) = '-' :: D :=
    dropWhile_append_stop '-' hAu (by decide)
  have htakeD : List.takeWhile isDigitChar D = D := takeWhile_all hDd
  have hdropD : List.dropWhile isDigitChar D = [] := dropWhile_all hDd
  have hbranch : matchOrphanBranch lit (lit ++ A ++ '-' :: D) =
      some (lit ++ A ++ '-' :: D, []) := by
    rw [show (lit ++ A ++ '-' :: D : List Char) = lit ++ (A ++ '-' :: D) from by simp]
    simp only [matchOrphanBranch, matchLit, hpre, if_true, List.drop_left,
      htakeA, hdropA, htakeD, hdropD, isEmpty_false_of_ne hA,
      isEmpty_false_of_ne hD, Bool.false_eq_true, if_false]
    simp
  have horph : orphanTokens (lit ++ A ++ '-' :: D) = [lit ++ A ++ '-' :: D] := by
    have hAt : matchOrphanAt (lit ++ A ++ '-' :: D) =
        some (lit ++ A ++ '-' :: D, []) := by
      rcases hlit with h | h <;> subst h
      · simp only [matchOrphanAt, hbranch]
      · have hnodbd : matchOrphanBranch "DBD-".toList
            ("SRC-".toList ++ A ++ '-' :: D) = none := by
          simp only [matchOrphanBranch, matchLit]
          rw [if_neg (by
            rw [show ("SRC-".toList ++ A ++ '-' :: D : List Char) =
              'S' :: ('R' :: 'C' :: '-' :: (A ++ '-' :: D)) from by
                simp [show "SRC-".toList = ['S', 'R', 'C', '-'] from rfl]]
            simp [show "DBD-".toList = ['D', 'B', 'D', '-'] from rfl,
              List.isPrefixOf])]
        simp only [matchOrphanAt, hnodbd, hbranch]
    rcases hlit with h | h <;> subst h
    · have htokform : ("DBD-".toList ++ A ++ '-' :: D : List Char) =
          'D' :: ('B' :: 'D' :: '-' :: (A ++ '-' :: D)) := by
        simp [show "DBD-".toList = ['D', 'B', 'D', '-'] from rfl]
      rw [htokform] at hAt ⊢
      rw [orphanTokens, List.length_cons, orphanAux_cons, hAt]
      simp [orphanAux_nil]
    · have htokform : ("SRC-".toList ++ A ++ '-' :: D : List Char) =
          'S' :: ('R' :: 'C' :: '-' :: (A ++ '-' :: D)) := by
        simp [show "SRC-".toList = ['S', 'R', 'C', '-'] from rfl]
      rw [htokform] at hAt ⊢
      rw [orphanTokens, List.length_cons, orphanAux_cons, hAt]
      simp [orphanAux_nil]
  show (orphanTokens (stripLinks
      ('[' :: ((lit ++ A ++ '-' :: D) ++ ']' :: '(' :: (tgt ++ [')']))))).map String.mk =
    [String.mk (lit ++ A ++ '-' :: D)]
  rw [hstrip, horph]
  rfl

/-- Witness for C10 at the token DBD-FOO-2 linked to file.md. -/
theorem c10_link_text_orphan_survives_witness :
    find_orphaned_references
      (String.mk ('[' :: (("DBD-".toList ++ "FOO".toList ++ '-' :: "2".toList) ++
        ']' :: '(' :: ("file.md".toList ++ [')'])))) =
      [String.mk ("DBD-".toList ++ "FOO".toList ++ '-' :: "2".toList)] :=
  c10_link_text_orphan_survives "DBD-".toList "FOO".toList "2".toList "file.md".toList
    (Or.inl rfl) (by decide) (by decide) (by decide) (by decide) (by decide) (by decide)

theorem getIssues_addIssue (m : List (String × List String)) (k e n : String) :
    getIssues (addIssue m k e) n = getIssues m n ++ (if n = k then [e] else []) := by
  induction m with
  | nil =>
    by_cases h : n = k
    · subst h
      simp [addIssue, getIssues, List.lookup]
    · have hb : (n == k) = false := by simp [h]
      simp [addIssue, getIssues, List.lookup, hb, h]
  | cons p rest ih =>
    obtain ⟨k', v⟩ := p
    by_cases h1 : k' = k
    · subst h1
      by_cases h2 : n = k'
      · subst h2
        simp [addIssue, getIssues, List.lookup]
      · have hb : (n == k') = false := by simp [h2]
        simp [addIssue, getIssues, List.lookup, hb, h2]
    · by_cases h2 : n = k'
      · subst h2
        have h3 : ¬n = k := fun he => h1 (he ▸ rfl)
        have hb : (n == n) = true := by simp
        simp [addIssue, getIssues, List.lookup, h1, h3]
      · have hb : (n == k') = false := by simp [h2]
        simp only [addIssue, if_neg h1]
        simp only [getIssues, List.lookup, hb]
        exact ih

theorem processLink_cases (v : Validator) (dn : String) (st : VState)
    (lk : String × String) :
    ((processLink v dn st lk).broken_links = st.broken_links ∧
      (processLink v dn st lk).invalid_requirement_ids =
        st.invalid_requirement_ids ∧
      (processLink v dn st lk).documents_with_issues =
        st.documents_with_issues) ∨
    (∃ e, (processLink v dn st lk).broken_links =
        st.broken_links ++ [⟨dn, lk.1, lk.2, e⟩] ∧
      (processLink v dn st lk).invalid_requirement_ids =
        st.invalid_requirement_ids ∧
      (processLink v dn st lk).documents_with_issues =
        addIssue st.documents_with_issues dn e) := by
  by_cases hr : (validate_link v dn lk.1 lk.2).1 = true
  · left
    refine ⟨?_, ?_, ?_⟩ <;> simp [processLink, hr]
  · right
    refine ⟨(validate_link v dn lk.1 lk.2).2, ?_, ?_, ?_⟩ <;>
      by_cases hc : critTarget lk.2 = true <;> simp [processLink, hr, hc]

theorem links_phase (v : Validator) (dn : String) :
    ∀ (links : List (String × String)) (st : VState),
      ∃ B : List BrokenLink,
        (links.foldl (processLink v dn) st).broken_links = st.broken_links ++ B ∧
        (∀ b ∈ B, b.file = dn) ∧
        (links.foldl (processLink v dn) st).invalid_requirement_ids =
          st.invalid_requirement_ids ∧
        (∀ n, getIssues (links.foldl (processLink v dn) st).documents_with_issues n =
          getIssues st.documents_with_issues n ++
            (B.filter (fun b => b.file == n)).map (·.error)) := by
  intro links
  induction links with
  | nil =>
    intro st
    exact ⟨[], by simp, by simp, by simp, by simp⟩
  | cons lk rest ih =>
    intro st
    obtain ⟨B₁, hb, hf, hi, hg⟩ := ih (processLink v dn st lk)
    rcases processLink_cases v dn st lk with ⟨e1, e2, e3⟩ | ⟨e, e1, e2, e3⟩
    · refine ⟨B₁, ?_, hf, ?_, ?_⟩
      · rw [List.foldl_cons, hb, e1]
      · rw [List.foldl_cons, hi, e2]
      · intro n
        rw [List.foldl_cons, hg n, e3]
    · refine ⟨⟨dn, lk.1, lk.2, e⟩ :: B₁, ?_, ?_, ?_, ?_⟩
      · rw [List.foldl_cons, hb, e1]
        simp
      · intro b hbm
        rcases List.mem_cons.mp hbm with h | h
        · subst h; rfl
        · exact hf b h
      · rw [List.foldl_cons, hi, e2]
      · intro n
        rw [List.foldl_cons, hg n, e3, getIssues_addIssue]
        by_cases hn : n = dn
        · subst hn
          simp [List.filter_cons]
        · have hbeq : (dn == n) = false :=
            beq_eq_false_iff_ne.mpr (Ne.symm hn)
          simp [List.filter_cons, hbeq, hn]

theorem processReq_cases (v : Validator) (dn : String) (st : VState)
    (rid : String) :
    processReq v dn st rid = st ∨
    (∃ e, (processReq v dn st rid).broken_links = st.broken_links ∧
      (processReq v dn st rid).invalid_requirement_ids =
        st.invalid_requirement_ids ++ [⟨dn, rid, e⟩] ∧
      (processReq v dn st rid).documents_with_issues =
        addIssue st.documents_with_issues dn e) := by
  by_cases hr : (validate_requirement_reference v.requirement_ids rid).1 = true
  · left
    simp [processReq, hr]
  · right
    refine ⟨(validate_requirement_reference v.requirement_ids rid).2, ?_, ?_, ?_⟩ <;>
      simp [processReq, hr]

theorem reqs_phase (v : Validator) (dn : String) :
    ∀ (refs : List String) (st : VState),
      ∃ I : List InvalidReq,
        (refs.foldl (processReq v dn) st).broken_links = st.broken_links ∧
        (refs.foldl (processReq v dn) st).invalid_requirement_ids =
          st.invalid_requirement_ids ++ I ∧
        (∀ i ∈ I, i.file = dn) ∧
        (∀ n, getIssues (refs.foldl (processReq v dn) st).documents_with_issues n =
          getIssues st.documents_with_issues n ++
            (I.filter (fun i => i.file == n)).map (·.error)) := by
  intro refs
  induction refs with
  | nil =>
    intro st
    exact ⟨[], by simp, by simp, by simp, by simp⟩
  | cons rid rest ih =>
    intro st
    obtain ⟨I₁, hb, hi, hf, hg⟩ := ih (processReq v dn st rid)
    rcases processReq_cases v dn st rid with heq | ⟨e, e1, e2, e3⟩
    · refine ⟨I₁, ?_, ?_, hf, ?_⟩
      · rw [List.foldl_cons, hb, heq]
      · rw [List.foldl_cons, hi, heq]
      · intro n
        rw [List.foldl_cons, hg n, heq]
    · refine ⟨⟨dn, rid, e⟩ :: I₁, ?_, ?_, ?_, ?_⟩
      · rw [List.foldl_cons, hb, e1]
      · rw [List.foldl_cons, hi, e2]
        simp
      · intro i him
        rcases List.mem_cons.mp him with h | h
        · subst h; rfl
        · exact hf i h
      · intro n
        rw [List.foldl_cons, hg n, e3, getIssues_addIssue]
        by_cases hn : n = dn
        · subst hn
          simp [List.filter_cons]
        · have hbeq : (dn == n) = false :=
            beq_eq_false_iff_ne.mpr (Ne.symm hn)
          simp [List.filter_cons, hbeq, hn]

theorem orphans_phase (dn : String) :
    ∀ (refs : List String) (st : VState),
      (refs.foldl (processOrphan dn) st).broken_links = st.broken_links ∧
      (refs.foldl (processOrphan dn) st).invalid_requirement_ids =
        st.invalid_requirement_ids ∧
      (refs.foldl (processOrphan dn) st).documents_with_issues =
        st.documents_with_issues := by
  intro refs
  induction refs with
  | nil =>
    intro st
    exact ⟨rfl, rfl, rfl⟩
  | cons r rest ih =>
    intro st
    have h := ih (processOrphan dn st r)
    simpa [processOrphan] using h

theorem processDoc_issues (v : Validator) (d : Document) (st : VState) :
    ∃ (B : List BrokenLink) (I : List InvalidReq),
      (processDoc v st d).broken_links = st.broken_links ++ B ∧
      (∀ b ∈ B, b.file = d.name) ∧
      (processDoc v st d).invalid_requirement_ids =
        st.invalid_requirement_ids ++ I ∧
      (∀ i ∈ I, i.file = d.name) ∧
      (∀ n, getIssues (processDoc v st d).documents_with_issues n =
        getIssues st.documents_with_issues n ++
          (B.filter (fun b => b.file == n)).map (·.error) ++
          (I.filter (fun i => i.file == n)).map (·.error)) := by
  obtain ⟨B, hb, hbf, hbi, hbg⟩ :=
    links_phase v d.name (extract_links d.content) st
  obtain ⟨I, hib, hii, hif, hig⟩ :=
    reqs_phase v d.name (find_requirement_references d.content)
      ((extract_links d.content).foldl (processLink v d.name) st)
  obtain ⟨hob, hoi, hod⟩ :=
    orphans_phase d.name (find_orphaned_references d.content)
      ((find_requirement_references d.content).foldl (processReq v d.name)
        ((extract_links d.content).foldl (processLink v d.name) st))
  refine ⟨B, I, ?_, hbf, ?_, hif, ?_⟩
  · rw [show processDoc v st d = (find_orphaned_references d.content).foldl
      (processOrphan d.name) ((find_requirement_references d.content).foldl
        (processReq v d.name) ((extract_links d.content).foldl
          (processLink v d.name) st)) from rfl]
    rw [hob, hib, hb]
  · rw [show processDoc v st d = (find_orphaned_references d.content).foldl
      (processOrphan d.name) ((find_requirement_references d.content).foldl
        (processReq v d.name) ((extract_links d.content).foldl
          (processLink v d.name) st)) from rfl]
    rw [hoi, hii, hbi]
  · intro n
    rw [show processDoc v st d = (find_orphaned_references d.content).foldl
      (processOrphan d.name) ((find_requirement_references d.content).foldl
        (processReq v d.name) ((extract_links d.content).foldl
          (processLink v d.name) st)) from rfl]
    rw [show getIssues ((find_orphaned_references d.content).foldl
      (processOrphan d.name) ((find_requirement_references d.content).foldl
        (processReq v d.name) ((extract_links d.content).foldl
          (processLink v d.name) st))).documents_with_issues n =
      getIssues ((find_requirement_references d.content).foldl
        (processReq v d.name) ((extract_links d.content).foldl
          (processLink v d.name) st)).documents_with_issues n from by rw [hod]]
    rw [hig n, hbg n, List.append_assoc]


theorem docs_fold_chars (v : Validator) :
    ∀ (docs : List Document) (st : VState),
      (docs.map (·.name)).Nodup →
      (∀ b ∈ st.broken_links, b.file ∉ docs.map (·.name)) →
      (∀ i ∈ st.invalid_requirement_ids, i.file ∉ docs.map (·.name)) →
      (∀ n, getIssues st.documents_with_issues n =
        brokenErrorsFor st n ++ invalidErrorsFor st n) →
      ∀ n, getIssues (docs.foldl (processDoc v) st).documents_with_issues n =
        brokenErrorsFor (docs.foldl (processDoc v) st) n ++
          invalidErrorsFor (docs.foldl (processDoc v) st) n := by
  intro docs
  induction docs with
  | nil =>
    intro st _ _ _ hchar n
    exact hchar n
  | cons d ds ih =>
    intro st hnd hbf hif hchar n
    obtain ⟨B, I, hb, hbfile, hi, hifile, hg⟩ := processDoc_issues v d st
    have hd_notin : d.name ∉ ds.map (·.name) :=
      (List.nodup_cons.mp (by simpa using hnd)).1
    rw [List.foldl_cons]
    apply ih (processDoc v st d)
      ((List.nodup_cons.mp (by simpa using hnd)).2)
    · intro b hbm
      rw [hb] at hbm
      rcases List.mem_append.mp hbm with h | h
      · intro hmem
        exact hbf b h (by simp [hmem])
      · rw [hbfile b h]
        exact hd_notin
    · intro i him
      rw [hi] at him
      rcases List.mem_append.mp him with h | h
      · intro hmem
        exact hif i h (by simp [hmem])
      · rw [hifile i h]
        exact hd_notin
    · intro n'
      rw [hg n', hchar n']
      unfold brokenErrorsFor invalidErrorsFor
      rw [hb, hi, List.filter_append, List.map_append,
        List.filter_append, List.map_append]
      by_cases hn' : n' = d.name
      · have hb0 : st.broken_links.filter (fun b => b.file == n') = [] := by
          rw [List.filter_eq_nil_iff]
          intro b hbm hbeq
          apply hbf b hbm
          rw [show b.file = n' from beq_iff_eq.mp hbeq, hn']
          simp
        have hi0 : st.invalid_requirement_ids.filter (fun i => i.file == n') = [] := by
          rw [List.filter_eq_nil_iff]
          intro i him hbeq
          apply hif i him
          rw [show i.file = n' from beq_iff_eq.mp hbeq, hn']
          simp
        rw [hb0, hi0]
        simp
      · have hB0 : B.filter (fun b => b.file == n') = [] := by
          rw [List.filter_eq_nil_iff]
          intro b hbm hbeq
          exact hn' ((beq_iff_eq.mp hbeq).symm.trans (hbfile b hbm))
        have hI0 : I.filter (fun i => i.file == n') = [] := by
          rw [List.filter_eq_nil_iff]
          intro i him hbeq
          exact hn' ((beq_iff_eq.mp hbeq).symm.trans (hifile i him))
        rw [hB0, hI0]
        simp

/--
Claim C3, counterexample.  A document containing an orphaned reference
and no other issue: the orphan warning is recorded, yet the document does
not appear in the report's `documents_with_issues` at all — orphan
warnings are never added to the per-document tally.
-/
theorem c3_orphans_not_tallied_counterexample :
    (validate_all [⟨"A.md", "see DBD-FOO-2 here"⟩]).orphaned_references =
      [⟨"A.md", "DBD-FOO-2"⟩] ∧
    (generate_report (validate_all
      [⟨"A.md", "see DBD-FOO-2 here"⟩])).documents_with_issues = [] := by
  constructor
  · decide
  · have h : (validate_all
        [⟨"A.md", "see DBD-FOO-2 here"⟩]).documents_with_issues = [] := by decide
    show ((validate_all [⟨"A.md", "see DBD-FOO-2 here"⟩]).documents_with_issues.mergeSort
      moreIssues).take 10 = []
    rw [h]
    simp

/--
Claim C3, amended.  Over any corpus with pairwise-distinct file names:
the per-document tally maps each document to the concatenation of its
broken-link error messages and its invalid-requirement-reference error
messages, in that order — orphan warnings are excluded; and the report
retains only (at most) 10 documents, a selection maximizing the issue
count: every retained document has at least as many issues as every
dropped one.
-/
theorem c3_amended_documents_with_issues (docs : List Document)
    (hnd : (docs.map (·.name)).Nodup) :
    (∀ n, getIssues (validate_all docs).documents_with_issues n =
      brokenErrorsFor (validate_all docs) n ++
        invalidErrorsFor (validate_all docs) n) ∧
    (∃ dropped, ((validate_all docs).documents_with_issues).Perm
        ((generate_report (validate_all docs)).documents_with_issues ++ dropped) ∧
      (generate_report (validate_all docs)).documents_with_issues.length =
        min 10 (validate_all docs).documents_with_issues.length ∧
      ∀ r ∈ (generate_report (validate_all docs)).documents_with_issues,
        ∀ x ∈ dropped, x.2.length ≤ r.2.length) := by
  constructor
  · exact docs_fold_chars (mkValidator docs) docs initState hnd
      (by simp [initState]) (by simp [initState])
      (by
        intro n
        simp [initState, getIssues, brokenErrorsFor, invalidErrorsFor, List.lookup])
  · have htrans : ∀ a b c : String × List String,
        moreIssues a b → moreIssues b c → moreIssues a c := by
      intro a b c hab hbc
      simp only [moreIssues, decide_eq_true_eq] at hab hbc ⊢
      exact Nat.le_trans hbc hab
    have htotal : ∀ a b : String × List String,
        moreIssues a b || moreIssues b a := by
      intro a b
      simp only [moreIssues, Bool.or_eq_true, decide_eq_true_eq]
      exact Nat.le_total b.2.length a.2.length
    have hrep : (generate_report (validate_all docs)).documents_with_issues =
        ((validate_all docs).documents_with_issues.mergeSort moreIssues).take 10 :=
      rfl
    refine ⟨((validate_all docs).documents_with_issues.mergeSort moreIssues).drop 10,
      ?_, ?_, ?_⟩
    · rw [hrep, List.take_append_drop]
      exact (List.mergeSort_perm (validate_all docs).documents_with_issues
        moreIssues).symm
    · rw [hrep, List.length_take,
        (List.mergeSort_perm (validate_all docs).documents_with_issues
          moreIssues).length_eq]
    · have hsor := List.sorted_mergeSort htrans htotal
        (validate_all docs).documents_with_issues
      rw [← List.take_append_drop 10
        ((validate_all docs).documents_with_issues.mergeSort moreIssues)] at hsor
      have hpw := (List.pairwise_append.mp hsor).2.2
      intro r hr x hx
      have := hpw r (by rw [hrep] at hr; exact hr) x hx
      simpa [moreIssues] using this

/-- Witness for the amended C3 at a one-document corpus with one broken
link. -/
theorem c3_amended_documents_with_issues_witness :
    getIssues (validate_all [⟨"A.md", "[x](B.md)"⟩]).documents_with_issues "A.md" =
      brokenErrorsFor (validate_all [⟨"A.md", "[x](B.md)"⟩]) "A.md" ++
        invalidErrorsFor (validate_all [⟨"A.md", "[x](B.md)"⟩]) "A.md" :=
  (c3_amended_documents_with_issues [⟨"A.md", "[x](B.md)"⟩] (by decide)).1 "A.md"

end McRhythm
